import Mathlib

/-!
Verification of the quizcraft response-normalization pipeline (`api.py`).

The development shallowly embeds the pure core of the program:
`extract_json_from_text`, `fix_json_format`, `validate_and_fix_quiz`, and the
retry loops of the two HTTP handlers.  Text is modelled as `List Char`;
machine strings coming from the LLM are opaque character lists.  The external
collaborators (the LLM call and Python's `json.loads`) are parameters of the
embedded handlers, exactly as the spec treats them as black boxes.
-/

namespace Quizcraft

/-- Left curly brace, written by code point. -/
def lcurly : Char := Char.ofNat 123

/-- Right curly brace, written by code point. -/
def rcurly : Char := Char.ofNat 125

/-- ASCII apostrophe, written by code point. -/
def squote : Char := Char.ofNat 39

/-- Whitespace as matched by the regex class `\s` (ASCII part) and stripped by
`str.strip()` for the inputs considered here. -/
def isWsChar (c : Char) : Bool :=
  c = ' ' || c = '\t' || c = '\n' || c = '\r' || c = Char.ofNat 11 || c = Char.ofNat 12

/-- The character class `[a-zA-Z0-9_]` of the bare-key regex in
`fix_json_format`. -/
def isWordChar (c : Char) : Bool :=
  ('a' ≤ c && c ≤ 'z') || ('A' ≤ c && c ≤ 'Z') || ('0' ≤ c && c ≤ '9') || c = '_'

/-! ## Extractor: `extract_json_from_text` (api.py lines 50-64)

Tier 1 is `re.search(r'\[\s*\{.*\}\s*\]', text, re.DOTALL)`.  Because no
whitespace character is `{`, `}` or `]`, the backtracking in `\s*` is
deterministic, and the greedy `.*` selects the rightmost `\}\s*\]` suffix
match.  `tailMatchLen l` is the number of characters consumed by a greedy
match of `.*\}\s*\]` against a prefix of `l` (preferring matches that end
further right), and `startMatch` anchors the whole pattern at the head of the
text.  `arrObjMatch` is the leftmost search. -/

/-- Length consumed by `\s*\]` matching a prefix of the list, if it matches. -/
def wsCloseLen : List Char → Option Nat
  | [] => none
  | c :: rest =>
    if c = ']' then some 1
    else if isWsChar c then (wsCloseLen rest).map (· + 1)
    else none

/-- Length consumed by a greedy match of `.*\}\s*\]` against a prefix of the
list: the match ending at the rightmost possible `]` is preferred, mirroring
the greedy `.*` of the DOTALL regex. -/
def tailMatchLen : List Char → Option Nat
  | [] => none
  | c :: rest =>
    match tailMatchLen rest with
    | some n => some (n + 1)
    | none => if c = rcurly then (wsCloseLen rest).map (· + 1) else none

/-- Split off the leading run of whitespace. -/
def spanWs : List Char → List Char × List Char
  | [] => ([], [])
  | c :: rest =>
    if isWsChar c then
      let p := spanWs rest
      (c :: p.1, p.2)
    else ([], c :: rest)

/-- The full pattern `\[\s*\{.*\}\s*\]` anchored at the head of the text,
returning the matched substring. -/
def startMatch (l : List Char) : Option (List Char) :=
  match l with
  | [] => none
  | c :: rest =>
    if c = '[' then
      let p := spanWs rest
      match p.2 with
      | c2 :: rest2 =>
        if c2 = lcurly then
          match tailMatchLen rest2 with
          | some n => some ('[' :: (p.1 ++ c2 :: rest2.take n))
          | none => none
        else none
      | [] => none
    else none

/-- `re.search` of the tier-1 pattern: the leftmost position where the whole
pattern matches, with the greedy end. -/
def arrObjMatch : List Char → Option (List Char)
  | [] => none
  | c :: rest =>
    match startMatch (c :: rest) with
    | some m => some m
    | none => arrObjMatch rest

/-- `text.find('[')`, as an `Option` instead of `-1`. -/
def pyFindBr : List Char → Option Nat
  | [] => none
  | c :: rest => if c = '[' then some 0 else (pyFindBr rest).map (· + 1)

/-- `text.rfind(']')`, as an `Option` instead of `-1`. -/
def pyRFindCl : List Char → Option Nat
  | [] => none
  | c :: rest =>
    match pyRFindCl rest with
    | some n => some (n + 1)
    | none => if c = ']' then some 0 else none

/-- `end = text.rfind(']') + 1` with Python's `-1` for a missing `]`
becoming `0`. -/
def endOfLastClose (t : List Char) : Nat :=
  match pyRFindCl t with
  | some e => e + 1
  | none => 0

/-- `extract_json_from_text` (api.py lines 50-64): tier-1 regex search, then
the first-`[`-to-last-`]` fallback slice `text[start:end]`. -/
def extract_json_from_text (text : List Char) : Option (List Char) :=
  match arrObjMatch text with
  | some m => some m
  | none =>
    match pyFindBr text with
    | none => none
    | some s =>
      if endOfLastClose text > s then
        some ((text.drop s).take (endOfLastClose text - s))
      else none

/-! ## Repairer: `fix_json_format` (api.py lines 66-78)

Pass 1 is the two `str.replace` lines 69-70.  Line 69 replaces a double-quote
character with itself, twice — a no-op.  On line 70 the three consecutive
single-quote characters right after the first `replace(` open a *triple-quoted
string*, so (as Python's `ast` confirms) the whole line parses as a single
call replacing the literal fifteen-character substring between the two
triple-quote delimiters — comma, space, double quote, single quote, double
quote, right paren, dot, `r`, `e`, `p`, `l`, `a`, `c`, `e`, left paren — with
one single-quote character.  Pass 2 is
`re.sub(r'(\{|\,)\s*([a-zA-Z0-9_]+)\s*:', r'\1 "\2":', s)`, pass 3 is
`re.sub(r',\s*(\}|\])', r'\1', s)`.  The recursive functions reproduce the
left-to-right non-overlapping scan of both `str.replace` and `re.sub`: at
each position try the pattern; on a match emit the replacement and resume
after the match's end (the replacement itself is not rescanned). -/

/-- Does `pat` match at the head of the text (`str.replace` occurrence
test)? -/
def matchesAt : List Char → List Char → Bool
  | [], _ => true
  | _ :: _, [] => false
  | p :: ps, c :: cs => p = c && matchesAt ps cs

/-- Python `str.replace(pat, rep)` with explicit recursion fuel: the
left-to-right non-overlapping scan, resuming after each replaced occurrence.
(Both patterns used by the source are nonempty.) -/
def strReplF (pat rep : List Char) : Nat → List Char → List Char
  | _, [] => []
  | 0, c :: rest => c :: rest
  | Nat.succ n, c :: rest =>
    if matchesAt pat (c :: rest) then
      rep ++ strReplF pat rep n (List.drop (pat.length - 1) rest)
    else c :: strReplF pat rep n rest

theorem strReplF_congr (pat rep : List Char) (n : Nat) : ∀ (m : Nat) (l : List Char),
    l.length ≤ n → l.length ≤ m → strReplF pat rep n l = strReplF pat rep m l := by
  induction n with
  | zero =>
    intro m l hn _
    cases l with
    | nil => cases m <;> rfl
    | cons c rest => simp at hn
  | succ n ih =>
    intro m l hn hm
    cases l with
    | nil => cases m <;> rfl
    | cons c rest =>
      cases m with
      | zero => simp at hm
      | succ m =>
        have hrest : rest.length ≤ n := by
          simp only [List.length_cons] at hn; omega
        have hrestm : rest.length ≤ m := by
          simp only [List.length_cons] at hm; omega
        have hdrop : (List.drop (pat.length - 1) rest).length ≤ rest.length := by
          rw [List.length_drop]; omega
        simp only [strReplF]
        split
        · rw [ih m (List.drop (pat.length - 1) rest) (le_trans hdrop hrest)
            (le_trans hdrop hrestm)]
        · rw [ih m rest hrest hrestm]

/-- Python `str.replace(pat, rep)` on character lists (for nonempty `pat`). -/
def strRepl (pat rep l : List Char) : List Char := strReplF pat rep l.length l

/-- One unfolding step of the `str.replace` scan. -/
theorem strRepl_cons (pat rep : List Char) (c : Char) (rest : List Char) :
    strRepl pat rep (c :: rest) =
      if matchesAt pat (c :: rest) then
        rep ++ strRepl pat rep (List.drop (pat.length - 1) rest)
      else c :: strRepl pat rep rest := by
  show strReplF pat rep (rest.length + 1) (c :: rest) = _
  simp only [strReplF]
  split
  · rw [strReplF_congr pat rep rest.length (List.drop (pat.length - 1) rest).length
      (List.drop (pat.length - 1) rest) (by rw [List.length_drop]; omega)
      (Nat.le_refl _)]
    rfl
  · rfl

/-- The literal pattern of the single `replace` call on api.py line 70: the
fifteen characters standing between its two triple-quote delimiters. -/
def quotePat : List Char :=
  [',', ' ', '\"', squote, '\"', ')', '.', 'r', 'e', 'p', 'l', 'a', 'c', 'e', '(']

/-- Pass 1 of `fix_json_format` (api.py lines 69-70): two no-op replaces of a
double quote with itself, then the replace of `quotePat` by a single-quote
character. -/
def fixQuotes (l : List Char) : List Char :=
  strRepl quotePat [squote] (strRepl ['\"'] ['\"'] (strRepl ['\"'] ['\"'] l))

/-- Drop the leading run of whitespace (`\s*` with its deterministic
backtracking). -/
def dropWsL : List Char → List Char
  | [] => []
  | c :: rest => if isWsChar c then dropWsL rest else c :: rest

/-- Split off the leading run of `[a-zA-Z0-9_]` characters
(greedy `([a-zA-Z0-9_]+)`). -/
def takeWordL : List Char → List Char × List Char
  | [] => ([], [])
  | c :: rest =>
    if isWordChar c then
      let p := takeWordL rest
      (c :: p.1, p.2)
    else ([], c :: rest)

/-- Attempt `\s*([a-zA-Z0-9_]+)\s*:` right after a `{` or `,`: returns the
captured identifier and the remainder after the colon. -/
def tryKeyMatch (l : List Char) : Option (List Char × List Char) :=
  match takeWordL (dropWsL l) with
  | ([], _) => none
  | (c0 :: i0, l2) =>
    match dropWsL l2 with
    | c :: l3 => if c = ':' then some (c0 :: i0, l3) else none
    | [] => none

theorem dropWsL_length_le (l : List Char) : (dropWsL l).length ≤ l.length := by
  induction l with
  | nil => simp [dropWsL]
  | cons c rest ih =>
    simp only [dropWsL]
    split
    · exact Nat.le_succ_of_le ih
    · simp

theorem takeWordL_snd_length_le (l : List Char) :
    (takeWordL l).2.length ≤ l.length := by
  induction l with
  | nil => simp [takeWordL]
  | cons c rest ih =>
    simp only [takeWordL]
    split
    · exact Nat.le_succ_of_le ih
    · simp

theorem takeWordL_snd_length_lt (l : List Char)
    (h : (takeWordL l).1 ≠ []) : (takeWordL l).2.length < l.length := by
  cases l with
  | nil => simp [takeWordL] at h
  | cons c rest =>
    by_cases hc : isWordChar c
    · simp only [takeWordL, hc, if_true]
      exact Nat.lt_succ_of_le (takeWordL_snd_length_le rest)
    · simp [takeWordL, hc] at h

theorem tryKeyMatch_rest_length_lt (l : List Char) (i r : List Char)
    (h : tryKeyMatch l = some (i, r)) : r.length < l.length := by
  unfold tryKeyMatch at h
  split at h
  · exact absurd h (by simp)
  · rename_i c0 i0 l2 hw
    split at h
    · rename_i c l3 hdw
      split at h
      · simp only [Option.some.injEq, Prod.mk.injEq] at h
        have h1 : r.length = l3.length := by rw [h.2.symm]
        have h2 : l3.length < (dropWsL l2).length := by rw [hdw]; simp
        have h3 := dropWsL_length_le l2
        have h4 : (takeWordL (dropWsL l)).1 ≠ [] := by rw [hw]; simp
        have h5 := takeWordL_snd_length_lt (dropWsL l) h4
        have h5b : (takeWordL (dropWsL l)).2.length = l2.length := by rw [hw]
        have h6 := dropWsL_length_le l
        omega
      · exact absurd h (by simp)
    · exact absurd h (by simp)

/-- Pass 2 of `fix_json_format`, with the remaining input length as
structural fuel (each scan step consumes at least one character, so
`l.length` steps always suffice and the fuel-exhausted branch is
unreachable). -/
def fixKeysF : Nat → List Char → List Char
  | _, [] => []
  | 0, c :: rest => c :: rest
  | Nat.succ n, c :: rest =>
    if c = lcurly || c = ',' then
      match tryKeyMatch rest with
      | some p => c :: ' ' :: '\"' :: (p.1 ++ '\"' :: ':' :: fixKeysF n p.2)
      | none => c :: fixKeysF n rest
    else c :: fixKeysF n rest

/-- Pass 2 of `fix_json_format`: `re.sub(r'(\{|\,)\s*([a-zA-Z0-9_]+)\s*:',
r'\1 "\2":', s)`.  On a match the replacement keeps the leading brace/comma,
inserts a space, and wraps the key in double quotes; the scan resumes after
the match. -/
def fixKeys (l : List Char) : List Char := fixKeysF l.length l

theorem fixKeysF_congr (n : Nat) : ∀ (m : Nat) (l : List Char),
    l.length ≤ n → l.length ≤ m → fixKeysF n l = fixKeysF m l := by
  induction n with
  | zero =>
    intro m l hn _
    cases l with
    | nil => cases m <;> rfl
    | cons c rest => simp at hn
  | succ n ih =>
    intro m l hn hm
    cases l with
    | nil => cases m <;> rfl
    | cons c rest =>
      cases m with
      | zero => simp at hm
      | succ m =>
        have hrest : rest.length ≤ n := by
          simp only [List.length_cons] at hn; omega
        have hrestm : rest.length ≤ m := by
          simp only [List.length_cons] at hm; omega
        simp only [fixKeysF]
        split
        · cases hp : tryKeyMatch rest with
          | some p =>
            have hlen := tryKeyMatch_rest_length_lt rest p.1 p.2 (by rw [hp])
            dsimp only
            rw [ih m p.2 (by omega) (by omega)]
          | none => dsimp only; rw [ih m rest hrest hrestm]
        · rw [ih m rest hrest hrestm]

/-- One unfolding step of the pass-2 scan. -/
theorem fixKeys_cons (c : Char) (rest : List Char) :
    fixKeys (c :: rest) =
      if c = lcurly || c = ',' then
        match tryKeyMatch rest with
        | some p => c :: ' ' :: '\"' :: (p.1 ++ '\"' :: ':' :: fixKeys p.2)
        | none => c :: fixKeys rest
      else c :: fixKeys rest := by
  show fixKeysF (rest.length + 1) (c :: rest) = _
  simp only [fixKeysF]
  split
  · cases hp : tryKeyMatch rest with
    | some p =>
      have hlen := tryKeyMatch_rest_length_lt rest p.1 p.2 (by rw [hp])
      dsimp only
      rw [fixKeysF_congr rest.length p.2.length p.2 (by omega) (Nat.le_refl _)]
      rfl
    | none => rfl
  · rfl

/-- Attempt `\s*(\}|\])` right after a comma: returns the closing bracket and
the remainder after it. -/
def matchCommaClose : List Char → Option (Char × List Char)
  | [] => none
  | c :: rest =>
    if isWsChar c then matchCommaClose rest
    else if c = rcurly || c = ']' then some (c, rest)
    else none

theorem matchCommaClose_rest_length_le (l : List Char) (b : Char) (r : List Char)
    (h : matchCommaClose l = some (b, r)) : r.length < l.length := by
  induction l with
  | nil => simp [matchCommaClose] at h
  | cons c rest ih =>
    simp only [matchCommaClose] at h
    split at h
    · exact Nat.lt_succ_of_lt (ih h)
    · split at h
      · simp only [Option.some.injEq, Prod.mk.injEq] at h
        rw [← h.2]
        simp
      · exact absurd h (by simp)

/-- Pass 3 of `fix_json_format`, with the remaining input length as
structural fuel (always sufficient, as for `fixKeysF`). -/
def fixTrailingF : Nat → List Char → List Char
  | _, [] => []
  | 0, c :: rest => c :: rest
  | Nat.succ n, c :: rest =>
    if c = ',' then
      match matchCommaClose rest with
      | some p => p.1 :: fixTrailingF n p.2
      | none => c :: fixTrailingF n rest
    else c :: fixTrailingF n rest

/-- Pass 3 of `fix_json_format`: `re.sub(r',\s*(\}|\])', r'\1', s)`, deleting
a trailing comma (and the whitespace after it) before a closing bracket. -/
def fixTrailing (l : List Char) : List Char := fixTrailingF l.length l

theorem fixTrailingF_congr (n : Nat) : ∀ (m : Nat) (l : List Char),
    l.length ≤ n → l.length ≤ m → fixTrailingF n l = fixTrailingF m l := by
  induction n with
  | zero =>
    intro m l hn _
    cases l with
    | nil => cases m <;> rfl
    | cons c rest => simp at hn
  | succ n ih =>
    intro m l hn hm
    cases l with
    | nil => cases m <;> rfl
    | cons c rest =>
      cases m with
      | zero => simp at hm
      | succ m =>
        have hrest : rest.length ≤ n := by
          simp only [List.length_cons] at hn; omega
        have hrestm : rest.length ≤ m := by
          simp only [List.length_cons] at hm; omega
        simp only [fixTrailingF]
        split
        · cases hp : matchCommaClose rest with
          | some p =>
            have hlen := matchCommaClose_rest_length_le rest p.1 p.2 (by rw [hp])
            dsimp only
            rw [ih m p.2 (by omega) (by omega)]
          | none => dsimp only; rw [ih m rest hrest hrestm]
        · rw [ih m rest hrest hrestm]

/-- One unfolding step of the pass-3 scan. -/
theorem fixTrailing_cons (c : Char) (rest : List Char) :
    fixTrailing (c :: rest) =
      if c = ',' then
        match matchCommaClose rest with
        | some p => p.1 :: fixTrailing p.2
        | none => c :: fixTrailing rest
      else c :: fixTrailing rest := by
  show fixTrailingF (rest.length + 1) (c :: rest) = _
  simp only [fixTrailingF]
  split
  · cases hp : matchCommaClose rest with
    | some p =>
      have hlen := matchCommaClose_rest_length_le rest p.1 p.2 (by rw [hp])
      dsimp only
      rw [fixTrailingF_congr rest.length p.2.length p.2 (by omega) (Nat.le_refl _)]
      rfl
    | none => rfl
  · rfl

/-- `fix_json_format` (api.py lines 66-78): the literal `str.replace` pass,
then bare-key quoting, then trailing-comma removal. -/
def fix_json_format (l : List Char) : List Char :=
  fixTrailing (fixKeys (fixQuotes l))

/-! ## JSON values

The result of `json.loads`: Python values produced from JSON text.  Equality
of two such values is Python `==`, used by the validator's membership test
`q["correct"] not in q["options"]`. -/

/-- A parsed JSON value. -/
inductive JVal where
  | jnull : JVal
  | jbool : Bool → JVal
  | jnum : Int → JVal
  | jstr : String → JVal
  | jarr : List JVal → JVal
  | jobj : List (String × JVal) → JVal
deriving Repr

mutual

/-- Structural equality of JSON values (Python `==`). -/
def JVal.beq : JVal → JVal → Bool
  | JVal.jnull, JVal.jnull => true
  | JVal.jbool a, JVal.jbool b => a == b
  | JVal.jnum a, JVal.jnum b => a == b
  | JVal.jstr a, JVal.jstr b => a == b
  | JVal.jarr a, JVal.jarr b => JVal.beqList a b
  | JVal.jobj a, JVal.jobj b => JVal.beqObj a b
  | _, _ => false

/-- Elementwise equality of JSON arrays. -/
def JVal.beqList : List JVal → List JVal → Bool
  | [], [] => true
  | a :: as, b :: bs => JVal.beq a b && JVal.beqList as bs
  | _, _ => false

/-- Fieldwise equality of JSON objects. -/
def JVal.beqObj : List (String × JVal) → List (String × JVal) → Bool
  | [], [] => true
  | (k1, v1) :: as, (k2, v2) :: bs => k1 == k2 && JVal.beq v1 v2 && JVal.beqObj as bs
  | _, _ => false

end

theorem JVal.beq_iff_eq_aux :
    ∀ (n : Nat) (a b : JVal), sizeOf a ≤ n → (JVal.beq a b = true ↔ a = b) := by
  intro n
  induction n with
  | zero =>
    intro a b h
    exact absurd h (by cases a <;> simp <;> omega)
  | succ n ih =>
    intro a b h
    cases a with
    | jnull => cases b <;> simp [JVal.beq]
    | jbool x => cases b <;> simp [JVal.beq]
    | jnum x => cases b <;> simp [JVal.beq]
    | jstr x => cases b <;> simp [JVal.beq]
    | jarr xs =>
      cases b with
      | jnull => simp [JVal.beq]
      | jbool y => simp [JVal.beq]
      | jnum y => simp [JVal.beq]
      | jstr y => simp [JVal.beq]
      | jobj ys => simp [JVal.beq]
      | jarr ys =>
        simp only [JVal.beq, JVal.jarr.injEq]
        have hsz : sizeOf xs ≤ n := by
          have := JVal.jarr.sizeOf_spec xs
          omega
        clear h
        induction xs generalizing ys with
        | nil => cases ys <;> simp [JVal.beqList]
        | cons x xs ihx =>
          cases ys with
          | nil => simp [JVal.beqList]
          | cons y ys =>
            have hx : sizeOf x ≤ n := by
              have := List.cons.sizeOf_spec x xs
              omega
            have hxs : sizeOf xs ≤ n := by
              have := List.cons.sizeOf_spec x xs
              omega
            simp only [JVal.beqList, Bool.and_eq_true, List.cons.injEq]
            exact and_congr (ih x y hx) (ihx ys hxs)
    | jobj xs =>
      cases b with
      | jnull => simp [JVal.beq]
      | jbool y => simp [JVal.beq]
      | jnum y => simp [JVal.beq]
      | jstr y => simp [JVal.beq]
      | jarr ys => simp [JVal.beq]
      | jobj ys =>
        simp only [JVal.beq, JVal.jobj.injEq]
        have hsz : sizeOf xs ≤ n := by
          have := JVal.jobj.sizeOf_spec xs
          omega
        clear h
        induction xs generalizing ys with
        | nil => cases ys <;> simp [JVal.beqObj]
        | cons x xs ihx =>
          cases ys with
          | nil => simp [JVal.beqObj]
          | cons y ys =>
            obtain ⟨k1, v1⟩ := x
            obtain ⟨k2, v2⟩ := y
            have hx : sizeOf v1 ≤ n := by
              have h1 := List.cons.sizeOf_spec (k1, v1) xs
              have h2 := Prod.mk.sizeOf_spec k1 v1
              omega
            have hxs : sizeOf xs ≤ n := by
              have h1 := List.cons.sizeOf_spec (k1, v1) xs
              omega
            simp only [JVal.beqObj, Bool.and_eq_true, List.cons.injEq, Prod.mk.injEq,
              beq_iff_eq]
            exact and_congr (and_congr Iff.rfl (ih v1 v2 hx)) (ihx ys hxs)

theorem JVal.beq_iff_eq (a b : JVal) : JVal.beq a b = true ↔ a = b :=
  JVal.beq_iff_eq_aux (sizeOf a) a b (Nat.le_refl _)

instance : DecidableEq JVal :=
  fun a b => decidable_of_iff (JVal.beq a b = true) (JVal.beq_iff_eq a b)

/-! ## Python dict operations

A parsed JSON object is an association list.  `json.loads` produces dicts
with unique keys, but nothing below depends on uniqueness: lookup takes the
first binding, and assignment `q[k] = v` replaces the value of an existing
key in place (keeping its position) or appends a new binding at the end,
exactly like a Python dict. -/

/-- `q[k]` / `k in q`: first binding of `k`. -/
def dlookup (d : List (String × JVal)) (k : String) : Option JVal :=
  match d with
  | [] => none
  | (k1, v1) :: rest => if k1 = k then some v1 else dlookup rest k

/-- Replace the value of every binding of `k` (there is at most one in a real
dict) keeping positions. -/
def replaceKey (d : List (String × JVal)) (k : String) (v : JVal) :
    List (String × JVal) :=
  match d with
  | [] => []
  | (k1, v1) :: rest =>
    if k1 = k then (k1, v) :: replaceKey rest k v
    else (k1, v1) :: replaceKey rest k v

/-- `q[k] = v` on a Python dict: in-place update if `k` is present, append
otherwise. -/
def dictSet (d : List (String × JVal)) (k : String) (v : JVal) :
    List (String × JVal) :=
  if (dlookup d k).isSome then replaceKey d k v else d ++ [(k, v)]

theorem dlookup_replaceKey_self (d : List (String × JVal)) (k : String) (v : JVal)
    (h : (dlookup d k).isSome) : dlookup (replaceKey d k v) k = some v := by
  induction d with
  | nil => simp [dlookup] at h
  | cons p rest ih =>
    obtain ⟨k1, v1⟩ := p
    by_cases hk : k1 = k
    · simp [replaceKey, dlookup, hk]
    · simp only [replaceKey, dlookup, hk, if_false, if_neg hk] at h ⊢
      exact ih h

theorem dlookup_dictSet_self (d : List (String × JVal)) (k : String) (v : JVal) :
    dlookup (dictSet d k v) k = some v := by
  unfold dictSet
  split
  · exact dlookup_replaceKey_self d k v (by assumption)
  · induction d with
    | nil => simp [dlookup]
    | cons p rest ih =>
      obtain ⟨k1, v1⟩ := p
      by_cases hk : k1 = k
      · rename_i h
        exact absurd (by simp [dlookup, hk]) h
      · rename_i h
        have h2 : ¬ (dlookup rest k).isSome = true := by
          simp only [dlookup, hk, if_false, if_neg hk] at h
          exact h
        simp only [List.cons_append, dlookup, hk, if_false, if_neg hk]
        exact ih h2

theorem dlookup_replaceKey_other (d : List (String × JVal)) (k k2 : String)
    (v : JVal) (h : k2 ≠ k) : dlookup (replaceKey d k v) k2 = dlookup d k2 := by
  have hk3 : ¬ k = k2 := fun he => h he.symm
  induction d with
  | nil => simp [replaceKey]
  | cons p rest ih =>
    obtain ⟨k1, v1⟩ := p
    by_cases hk : k1 = k
    · simp [replaceKey, dlookup, hk, hk3, ih]
    · simp only [replaceKey, dlookup, if_neg hk]
      by_cases hk2 : k1 = k2
      · simp [dlookup, hk2]
      · simp [dlookup, hk2, ih]

theorem dlookup_append_single_other (d : List (String × JVal)) (k k2 : String)
    (v : JVal) (h : k2 ≠ k) : dlookup (d ++ [(k, v)]) k2 = dlookup d k2 := by
  have hk3 : ¬ k = k2 := fun he => h he.symm
  induction d with
  | nil => simp [dlookup, hk3]
  | cons p rest ih =>
    obtain ⟨k1, v1⟩ := p
    by_cases hk2 : k1 = k2
    · simp [dlookup, hk2]
    · simp only [List.cons_append, dlookup, if_neg hk2]
      exact ih

theorem dlookup_dictSet_other (d : List (String × JVal)) (k k2 : String)
    (v : JVal) (h : k2 ≠ k) : dlookup (dictSet d k v) k2 = dlookup d k2 := by
  unfold dictSet
  split
  · exact dlookup_replaceKey_other d k k2 v h
  · exact dlookup_append_single_other d k k2 v h

/-! ## Quiz validator: `validate_and_fix_quiz` (api.py lines 80-135) -/

/-- The synthetic option `"Option N"` appended by the padding loop. -/
def optN (n : Nat) : JVal := JVal.jstr ("Option " ++ toString n)

/-- The option-padding loop (api.py lines 119-120): while fewer than 4
options, append `"Option N"` with `N` the new 1-based position.  The loop
body runs at most four times, so it is written as its four-way unrolling. -/
def padOptions (l : List JVal) : List JVal :=
  match l with
  | [] => [optN 1, optN 2, optN 3, optN 4]
  | [a] => [a, optN 2, optN 3, optN 4]
  | [a, b] => [a, b, optN 3, optN 4]
  | [a, b, c] => [a, b, c, optN 4]
  | l => l

/-- Option padding followed by the truncation of api.py lines 123-124. -/
def fixedOptions (l : List JVal) : List JVal :=
  let p := padOptions l
  if p.length > 4 then p.take 4 else p

/-- The field-repair block of api.py lines 93-112: accept items that already
have `question`, `options` and `correct`; otherwise rename `choices` to
`options`, require `options` to be a list, rename `answer` (then
`correctAnswer`) to `correct`, and drop the item if a required field is still
missing. -/
def repairFields (d : List (String × JVal)) : Option (List (String × JVal)) :=
  if ((dlookup d "question").isSome && (dlookup d "options").isSome &&
      (dlookup d "correct").isSome) then
    some d
  else if (dlookup d "question").isNone then
    none
  else
    let d1 :=
      match dlookup d "options", dlookup d "choices" with
      | none, some v => dictSet d "options" v
      | _, _ => d
    match dlookup d1 "options" with
    | none => none
    | some (JVal.jarr _) =>
      let d2 :=
        match dlookup d1 "correct", dlookup d1 "answer" with
        | none, some v => dictSet d1 "correct" v
        | _, _ => d1
      let d3 :=
        match dlookup d2 "correct", dlookup d2 "correctAnswer" with
        | none, some v => dictSet d2 "correct" v
        | _, _ => d2
      if ((dlookup d3 "question").isSome && (dlookup d3 "options").isSome &&
          (dlookup d3 "correct").isSome) then
        some d3
      else none
    | some _ => none

/-- Processing of one quiz item (api.py lines 88-130): skip non-dicts, repair
field names, require a list of at least 2 options, pad/truncate the options
to exactly 4, and force `correct` into the options (first option wins). -/
def processItem (q : JVal) : Option JVal :=
  match q with
  | JVal.jobj d =>
    (repairFields d).bind fun d1 =>
      match dlookup d1 "options", dlookup d1 "correct" with
      | some (JVal.jarr opts), some c =>
        if opts.length < 2 then none
        else
          let opts2 := fixedOptions opts
          let d2 := dictSet d1 "options" (JVal.jarr opts2)
          if c ∈ opts2 then some (JVal.jobj d2)
          else some (JVal.jobj (dictSet d2 "correct" (opts2.headD JVal.jnull)))
      | _, _ => none
  | _ => none

/-- `validate_and_fix_quiz` (api.py lines 80-135): reject non-lists, process
each item, and return the surviving items unless none survive.

One deliberate modelling choice: Python's `q["options"] = q["choices"]`
aliases the same list object, so in-place padding of `options` is also
visible through the leftover `choices` binding; the model treats lists as
values, so `choices` keeps its original content.  No later read of the item
looks at `choices` again, so the difference is unobservable in the pipeline's
results on `question`, `options` and `correct`. -/
def validate_and_fix_quiz (quiz : JVal) : Option (List JVal) :=
  match quiz with
  | JVal.jarr items =>
    let vs := items.filterMap processItem
    if vs.isEmpty then none else some vs
  | _ => none

/-! ## The retry loop shared by both handlers (api.py lines 179-258, 340-419)

The LLM call and `json.loads` are external collaborators: one attempt's
result is an `AttemptRes` (an exception, or the `response.text` string), and
`parse` is the `json.loads` oracle returning `none` on a `JSONDecodeError`.
The loop `while attempts < max_attempts` with `max_attempts = 3` runs one
iteration per element of a 3-element response list; every `continue` is
guarded by `attempts < max_attempts`, so the element in last position (the
`attempts = max_attempts` iteration) always returns. -/

/-- `str.strip()`: drop leading and trailing whitespace. -/
def stripChars (l : List Char) : List Char :=
  ((l.dropWhile isWsChar).reverse.dropWhile isWsChar).reverse

/-- The HTTP reply of a handler: a 200 quiz payload or an error
`(status, {"error": msg})`. -/
inductive Outcome where
  | ok (quiz : List JVal)
  | err (status : Nat) (msg : String)
deriving Repr, DecidableEq

/-- One interaction with the LLM collaborator: `model.generate_content` (or
`response.text`) raised, or produced the given text. -/
inductive AttemptRes where
  | raised
  | text (t : List Char)

/-- The synthetic filler item of api.py lines 233-238 / 394-399. -/
def fillerItem (question : String) : JVal :=
  JVal.jobj [("question", JVal.jstr question),
    ("options", JVal.jarr [JVal.jstr "Option A", JVal.jstr "Option B",
      JVal.jstr "Option C", JVal.jstr "Option D"]),
    ("correct", JVal.jstr "Option A")]

/-- The final-attempt padding loop: append the filler item until length 10
(appending one filler at a time until `len = 10` is the same as appending
`10 - len` copies at once). -/
def padTo10 (filler : JVal) (l : List JVal) : List JVal :=
  l ++ List.replicate (10 - l.length) filler

/-- The body of one iteration of the retry loop.  `none` means the iteration
hit `continue` (only possible when `isLast = false`); `some o` means it
returned response `o`. -/
def attemptStep (parse : List Char → Option JVal) (fillerQ : String)
    (isLast : Bool) (r : AttemptRes) : Option Outcome :=
  match r with
  | AttemptRes.raised =>
    if isLast then some (Outcome.err 500 "Failed to generate quiz after multiple attempts")
    else none
  | AttemptRes.text t =>
    if t.isEmpty then
      if isLast then some (Outcome.err 500 "Empty response from AI model") else none
    else
      match extract_json_from_text (stripChars t) with
      | none =>
        if isLast then some (Outcome.err 500 "Could not find JSON array in response")
        else none
      | some jtext =>
        match parse (fix_json_format jtext) with
        | none =>
          if isLast then some (Outcome.err 500 "Failed to parse AI response as JSON")
          else none
        | some quiz =>
          match validate_and_fix_quiz quiz with
          | none =>
            if isLast then some (Outcome.err 500 "Invalid quiz structure") else none
          | some vq =>
            if vq.length < 10 then
              if isLast then some (Outcome.ok (padTo10 (fillerItem fillerQ) vq)) else none
            else if vq.length > 10 then some (Outcome.ok (vq.take 10))
            else some (Outcome.ok vq)

/-- The retry loop over the per-attempt results.  The two fallback values are
unreachable when the loop is entered with a nonempty response list: a
non-final iteration that fails falls through to the next element, and the
final iteration always produces a response (`attemptStep _ _ true _` is never
`none`). -/
def runAttempts (parse : List Char → Option JVal) (fillerQ : String) :
    List AttemptRes → Outcome
  | [] => Outcome.err 500 "Failed to generate quiz after multiple attempts"
  | [r] =>
    match attemptStep parse fillerQ true r with
    | some o => o
    | none => Outcome.err 500 "Failed to generate quiz after multiple attempts"
  | r :: rest =>
    match attemptStep parse fillerQ false r with
    | some o => o
    | none => runAttempts parse fillerQ rest

/-! ## Route `/generate-quiz` (api.py lines 137-262) -/

/-- A Python value sitting in the parsed request body; only its stringness
matters to the handler. -/
inductive PyVal where
  | pstr (s : String)
  | pint (n : Int)
  | plist (l : List PyVal)
  | pnone

/-- Lookup in the request-body dict. -/
def plookup (d : List (String × PyVal)) (k : String) : Option PyVal :=
  match d with
  | [] => none
  | (k1, v1) :: rest => if k1 = k then some v1 else plookup rest k

/-- The 400 body for a missing `text` field. -/
def missingTextMsg : String := "Missing \x27text\x27 field"

/-- The generic 500 body of the outermost `except` handler. -/
def unexpectedErrorMsg : String := "An unexpected error occurred. Please try again."

/-- The `/generate-quiz` handler (api.py lines 137-262).  `body` is
`request.get_json()` (`none` for a missing/null body; an empty dict is also
falsy).  A non-string `text` value makes `data['text'].strip()` raise
`AttributeError`, which only the outermost `except` catches. -/
def generate_quiz (parse : List Char → Option JVal)
    (body : Option (List (String × PyVal))) (resps : List AttemptRes) : Outcome :=
  match body with
  | none => Outcome.err 400 missingTextMsg
  | some d =>
    if d.isEmpty then Outcome.err 400 missingTextMsg
    else
      match plookup d "text" with
      | none => Outcome.err 400 missingTextMsg
      | some v =>
        match v with
        | PyVal.pstr s0 =>
          let text := stripChars s0.toList
          if text.isEmpty then Outcome.err 400 "Text input cannot be empty"
          else
            runAttempts parse ("Additional question about " ++ String.mk text ++ "?") resps
        | _ => Outcome.err 500 unexpectedErrorMsg

/-! ## Route `/api/generate-quiz-from-pdf` (api.py lines 264-434) -/

/-- The environment one PDF request runs against: the multipart field, the
uploaded file's name and size, the behavior of the PDF text extractor, and
the per-attempt LLM results. -/
structure PdfEnv where
  hasPdfField : Bool
  filename : String
  fileSize : Nat
  extractOk : Bool
  extractedText : String
  resps : List AttemptRes

/-- `c.lower()` for the ASCII range, as applied by `filename.lower()`. -/
def lowerAscii (c : Char) : Char :=
  if 'A' ≤ c && c ≤ 'Z' then Char.ofNat (c.toNat + 32) else c

/-- `pdf_file.filename.lower().endswith('.pdf')`. -/
def filenameIsPdf (s : String) : Bool :=
  List.isSuffixOf ".pdf".toList (s.toList.map lowerAscii)

/-- The `/api/generate-quiz-from-pdf` handler (api.py lines 264-434).  The
second component records whether the temporary upload file still exists when
the handler returns.  The first three rejections happen before
`pdf_file.save`, so no file exists on those paths; afterwards the body runs
inside `try ... finally`, whose `finally` removes the file if it is still
present — the oversized-file branch removes it eagerly (line 294) and every
other path leaves it for the `finally` block. -/
def generate_quiz_from_pdf (parse : List Char → Option JVal) (env : PdfEnv) :
    Outcome × Bool :=
  if ¬ env.hasPdfField then (Outcome.err 400 "No PDF file provided", false)
  else if env.filename = "" then (Outcome.err 400 "No PDF file selected", false)
  else if ¬ filenameIsPdf env.filename then
    (Outcome.err 400 "Uploaded file is not a PDF", false)
  else
    let body : Outcome × Bool :=
      if env.fileSize > 10 * 1024 * 1024 then
        (Outcome.err 400 "PDF file size exceeds 10MB limit", false)
      else if ¬ env.extractOk then
        (Outcome.err 400 "Failed to extract text from PDF", true)
      else if (stripChars env.extractedText.toList).isEmpty then
        (Outcome.err 400 "No text found in PDF, please upload a text-based PDF", true)
      else
        (runAttempts parse "Additional question about the PDF content?" env.resps, true)
    (body.1, false)

/-! ## Properties of the option fixing and the padding loops -/

theorem padOptions_length (l : List JVal) :
    (padOptions l).length = max l.length 4 := by
  rcases l with _ | ⟨a, _ | ⟨b, _ | ⟨c, _ | ⟨d, tl⟩⟩⟩⟩ <;>
    simp [padOptions] <;> omega

theorem fixedOptions_length (l : List JVal) : (fixedOptions l).length = 4 := by
  have h := padOptions_length l
  simp only [fixedOptions]
  split
  · simp only [List.length_take]
    omega
  · omega

theorem fixedOptions_ne_nil (l : List JVal) : fixedOptions l ≠ [] := by
  intro h
  have := fixedOptions_length l
  rw [h] at this
  simp at this

theorem headD_mem (l : List JVal) (a : JVal) (h : l ≠ []) : l.headD a ∈ l := by
  cases l with
  | nil => exact absurd rfl h
  | cons x xs => simp

theorem padTo10_length (f : JVal) (l : List JVal) :
    (padTo10 f l).length = max l.length 10 := by
  simp only [padTo10, List.length_append, List.length_replicate]
  omega

/-- Postcondition of the per-item processing: every surviving item is an
object whose `options` is a list containing its `correct` value. -/
theorem processItem_post (q0 q : JVal) (h : processItem q0 = some q) :
    ∃ d opts c, q = JVal.jobj d ∧
      dlookup d "options" = some (JVal.jarr opts) ∧ opts.length = 4 ∧
      dlookup d "correct" = some c ∧ c ∈ opts := by
  cases q0 with
  | jobj d0 =>
    simp only [processItem] at h
    cases hr : repairFields d0 with
    | none => rw [hr] at h; simp at h
    | some d1 =>
      rw [hr] at h
      simp only [Option.some_bind] at h
      cases ho : dlookup d1 "options" with
      | none => rw [ho] at h; simp at h
      | some ov =>
        rw [ho] at h
        cases ov with
        | jarr opts =>
          cases hc : dlookup d1 "correct" with
          | none => rw [hc] at h; simp at h
          | some c =>
            rw [hc] at h
            simp only at h
            split at h
            · exact absurd h (by simp)
            · split at h
              · rename_i hmem
                simp only [Option.some.injEq] at h
                refine ⟨dictSet d1 "options" (JVal.jarr (fixedOptions opts)),
                  fixedOptions opts, c, h.symm, ?_, ?_, ?_, hmem⟩
                · exact dlookup_dictSet_self d1 "options" _
                · exact fixedOptions_length opts
                · rw [dlookup_dictSet_other d1 "options" "correct" _ (by decide)]
                  exact hc
              · rename_i hmem
                simp only [Option.some.injEq] at h
                refine ⟨dictSet (dictSet d1 "options" (JVal.jarr (fixedOptions opts)))
                    "correct" ((fixedOptions opts).headD JVal.jnull),
                  fixedOptions opts, (fixedOptions opts).headD JVal.jnull, h.symm,
                  ?_, ?_, ?_, ?_⟩
                · rw [dlookup_dictSet_other _ "correct" "options" _ (by decide)]
                  exact dlookup_dictSet_self d1 "options" _
                · exact fixedOptions_length opts
                · exact dlookup_dictSet_self _ "correct" _
                · exact headD_mem _ _ (fixedOptions_ne_nil opts)
        | jnull => cases hc2 : dlookup d1 "correct" <;> rw [hc2] at h <;> simp at h
        | jbool b => cases hc2 : dlookup d1 "correct" <;> rw [hc2] at h <;> simp at h
        | jnum n => cases hc2 : dlookup d1 "correct" <;> rw [hc2] at h <;> simp at h
        | jstr s => cases hc2 : dlookup d1 "correct" <;> rw [hc2] at h <;> simp at h
        | jobj o => cases hc2 : dlookup d1 "correct" <;> rw [hc2] at h <;> simp at h
  | jnull => exact absurd h (by simp [processItem])
  | jbool b => exact absurd h (by simp [processItem])
  | jnum n => exact absurd h (by simp [processItem])
  | jstr s => exact absurd h (by simp [processItem])
  | jarr a => exact absurd h (by simp [processItem])

/-! ## Claim C2 -/

/-- A quiz item with a duplicated option equal to `correct`. -/
def c2opts : List JVal := [JVal.jstr "A", JVal.jstr "A", JVal.jstr "B", JVal.jstr "C"]

/-- The dict of the duplicated-option item. -/
def c2dict : List (String × JVal) :=
  [("question", JVal.jstr "Q"), ("options", JVal.jarr c2opts),
   ("correct", JVal.jstr "A")]

/-- The duplicated-option item. -/
def c2item : JVal := JVal.jobj c2dict

/-- A one-item quiz containing the duplicated-option item. -/
def c2quiz : JVal := JVal.jarr [c2item]

/-- Claim C2, counterexample: `validate_and_fix_quiz` keeps an item whose
`correct` value occurs twice among its `options`, so after validation
`correct` does not equal *exactly one* element of `options`. -/
theorem claim2_counterexample :
    validate_and_fix_quiz c2quiz = some [c2item] ∧
    dlookup c2dict "options" = some (JVal.jarr c2opts) ∧
    dlookup c2dict "correct" = some (JVal.jstr "A") ∧
    List.count (JVal.jstr "A") c2opts = 2 ∧ (2 : Nat) ≠ 1 := by
  refine ⟨by decide, by decide, by decide, by decide, by decide⟩

/-- Claim C2 (amended): for every quiz item that `validate_and_fix_quiz`
includes in its result, the item's `correct` field occurs in its `options`
(at least once; duplicated options can make it occur more than once). -/
theorem claim2_correct_in_options (quiz : JVal) (vs : List JVal)
    (h : validate_and_fix_quiz quiz = some vs) :
    ∀ q ∈ vs, ∃ d opts c, q = JVal.jobj d ∧
      dlookup d "options" = some (JVal.jarr opts) ∧
      dlookup d "correct" = some c ∧ c ∈ opts := by
  intro q hq
  cases quiz with
  | jarr items =>
    simp only [validate_and_fix_quiz] at h
    split at h
    · exact absurd h (by simp)
    · simp only [Option.some.injEq] at h
      subst h
      obtain ⟨q0, hq0, hpq⟩ := List.mem_filterMap.mp hq
      obtain ⟨d, opts, c, h1, h2, _, h4, h5⟩ := processItem_post q0 q hpq
      exact ⟨d, opts, c, h1, h2, h4, h5⟩
  | jnull => simp [validate_and_fix_quiz] at h
  | jbool b => simp [validate_and_fix_quiz] at h
  | jnum n => simp [validate_and_fix_quiz] at h
  | jstr s => simp [validate_and_fix_quiz] at h
  | jobj d => simp [validate_and_fix_quiz] at h

/-- Witness for the amended C2 at a concrete validated quiz. -/
theorem claim2_correct_in_options_witness :
    ∃ d opts c, c2item = JVal.jobj d ∧
      dlookup d "options" = some (JVal.jarr opts) ∧
      dlookup d "correct" = some c ∧ c ∈ opts :=
  claim2_correct_in_options c2quiz [c2item] (by decide) c2item (by simp)

/-! ## Claim C4 -/

/-- Claim C4: an item with a `question`, an `options` list of 2 to 6 strings,
and a `correct` value among those options is kept by the validator, and comes
back with exactly 4 options and a `correct` that is a member of the (possibly
padded or truncated) options. -/
theorem claim4_wellformed_items_kept (d : List (String × JVal))
    (opts : List JVal) (c : JVal)
    (hq : (dlookup d "question").isSome = true)
    (ho : dlookup d "options" = some (JVal.jarr opts))
    (hstr : ∀ v ∈ opts, ∃ s, v = JVal.jstr s)
    (hlen2 : 2 ≤ opts.length) (hlen6 : opts.length ≤ 6)
    (hc : dlookup d "correct" = some c) (hmem : c ∈ opts) :
    ∃ q, processItem (JVal.jobj d) = some q ∧
      ∃ d2 opts2 c2, q = JVal.jobj d2 ∧
        dlookup d2 "options" = some (JVal.jarr opts2) ∧ opts2.length = 4 ∧
        dlookup d2 "correct" = some c2 ∧ c2 ∈ opts2 := by
  have hr : repairFields d = some d := by
    unfold repairFields
    rw [if_pos]
    simp [hq, ho, hc]
  have hsome : ∃ q, processItem (JVal.jobj d) = some q := by
    simp only [processItem, hr, Option.some_bind, ho, hc]
    rw [if_neg (by omega)]
    split
    · exact ⟨_, rfl⟩
    · exact ⟨_, rfl⟩
  obtain ⟨q, hq2⟩ := hsome
  exact ⟨q, hq2, processItem_post _ q hq2⟩

/-- The concrete C4 witness item: five string options with `correct` the
fifth (which the truncation then removes, exercising the lossy repair). -/
def c4dict : List (String × JVal) :=
  [("question", JVal.jstr "Q"),
   ("options", JVal.jarr [JVal.jstr "A", JVal.jstr "B", JVal.jstr "C",
     JVal.jstr "D", JVal.jstr "E"]),
   ("correct", JVal.jstr "E")]

/-- The options list of the C4 witness item. -/
def c4opts : List JVal :=
  [JVal.jstr "A", JVal.jstr "B", JVal.jstr "C", JVal.jstr "D", JVal.jstr "E"]

/-- Witness for C4 at the concrete five-option item. -/
theorem claim4_wellformed_items_kept_witness :
    ∃ q, processItem (JVal.jobj c4dict) = some q ∧
      ∃ d2 opts2 c2, q = JVal.jobj d2 ∧
        dlookup d2 "options" = some (JVal.jarr opts2) ∧ opts2.length = 4 ∧
        dlookup d2 "correct" = some c2 ∧ c2 ∈ opts2 :=
  claim4_wellformed_items_kept c4dict c4opts (JVal.jstr "E") (by decide) (by decide)
    (by
      intro v hv
      simp only [c4opts, List.mem_cons, List.not_mem_nil, or_false] at hv
      rcases hv with rfl | rfl | rfl | rfl | rfl <;> exact ⟨_, rfl⟩)
    (by decide) (by decide) (by decide) (by decide)

/-! ## Claim C7 -/

/-- Claim C7: if an item survives the structural checks (field repair
succeeded, `options` is a list of at least 2 entries) but its `correct` value
is not among the padded/truncated options, the validator overwrites `correct`
with the first option. -/
theorem claim7_correct_overwritten (d d1 : List (String × JVal))
    (opts : List JVal) (c : JVal)
    (h1 : repairFields d = some d1)
    (h2 : dlookup d1 "options" = some (JVal.jarr opts))
    (h3 : dlookup d1 "correct" = some c)
    (h4 : 2 ≤ opts.length)
    (h5 : c ∉ fixedOptions opts) :
    ∃ d2, processItem (JVal.jobj d) = some (JVal.jobj d2) ∧
      dlookup d2 "correct" = (fixedOptions opts).head? := by
  simp only [processItem, h1, Option.some_bind, h2, h3]
  rw [if_neg (by omega), if_neg h5]
  refine ⟨_, rfl, ?_⟩
  rw [dlookup_dictSet_self]
  obtain ⟨x, xs, hx⟩ : ∃ x xs, fixedOptions opts = x :: xs := by
    cases hfo : fixedOptions opts with
    | nil => exact absurd hfo (fixedOptions_ne_nil opts)
    | cons x xs => exact ⟨x, xs, rfl⟩
  rw [hx]
  simp

/-- The concrete C7 witness item: `correct` is absent from its options. -/
def c7dict : List (String × JVal) :=
  [("question", JVal.jstr "Q"),
   ("options", JVal.jarr [JVal.jstr "A", JVal.jstr "B"]),
   ("correct", JVal.jstr "Z")]

/-- Witness for C7: the validator rewrites the stray `correct` to the first
option. -/
theorem claim7_correct_overwritten_witness :
    ∃ d2, processItem (JVal.jobj c7dict) = some (JVal.jobj d2) ∧
      dlookup d2 "correct" =
        (fixedOptions [JVal.jstr "A", JVal.jstr "B"]).head? :=
  claim7_correct_overwritten c7dict c7dict [JVal.jstr "A", JVal.jstr "B"] (JVal.jstr "Z")
    (by decide) (by decide) (by decide) (by decide) (by decide)

/-! ## Claim C3 -/

theorem attemptStep_ok_length (parse : List Char → Option JVal) (fq : String)
    (isLast : Bool) (r : AttemptRes) (q : List JVal)
    (h : attemptStep parse fq isLast r = some (Outcome.ok q)) : q.length = 10 := by
  cases r with
  | raised =>
    simp only [attemptStep] at h
    split at h <;> simp_all
  | text t =>
    simp only [attemptStep] at h
    split at h
    · split at h <;> simp_all
    · cases he : extract_json_from_text (stripChars t) with
      | none => rw [he] at h; split at h <;> simp_all
      | some jtext =>
        rw [he] at h
        dsimp only at h
        cases hp : parse (fix_json_format jtext) with
        | none => rw [hp] at h; dsimp only at h; split at h <;> simp_all
        | some quiz =>
          rw [hp] at h
          dsimp only at h
          cases hv : validate_and_fix_quiz quiz with
          | none => rw [hv] at h; dsimp only at h; split at h <;> simp_all
          | some vq =>
            rw [hv] at h
            dsimp only at h
            by_cases h10 : vq.length < 10
            · rw [if_pos h10] at h
              split at h
              · simp only [Option.some.injEq, Outcome.ok.injEq] at h
                rw [← h, padTo10_length]
                omega
              · exact absurd h (by simp)
            · rw [if_neg h10] at h
              by_cases hgt : vq.length > 10
              · rw [if_pos hgt] at h
                simp only [Option.some.injEq, Outcome.ok.injEq] at h
                rw [← h]
                simp only [List.length_take]
                omega
              · rw [if_neg hgt] at h
                simp only [Option.some.injEq, Outcome.ok.injEq] at h
                rw [← h]
                omega

theorem runAttempts_ok_length (parse : List Char → Option JVal) (fq : String)
    (resps : List AttemptRes) (q : List JVal)
    (h : runAttempts parse fq resps = Outcome.ok q) : q.length = 10 := by
  induction resps with
  | nil => simp [runAttempts] at h
  | cons r rest ih =>
    cases rest with
    | nil =>
      simp only [runAttempts] at h
      cases hs : attemptStep parse fq true r with
      | none => rw [hs] at h; simp at h
      | some o =>
        rw [hs] at h
        dsimp only at h
        rw [h] at hs
        exact attemptStep_ok_length parse fq true r q hs
    | cons r2 rest2 =>
      simp only [runAttempts] at h
      cases hs : attemptStep parse fq false r with
      | none => rw [hs] at h; exact ih h
      | some o =>
        rw [hs] at h
        dsimp only at h
        rw [h] at hs
        exact attemptStep_ok_length parse fq false r q hs

/-- Claim C3: every 200 response of either route carries a quiz of exactly 10
items — counts below 10 on the final attempt are padded with filler items,
counts above 10 are truncated to the first 10. -/
theorem claim3_success_has_length_10 (parse : List Char → Option JVal)
    (body : Option (List (String × PyVal))) (resps : List AttemptRes)
    (env : PdfEnv) (q qp : List JVal) :
    (generate_quiz parse body resps = Outcome.ok q → q.length = 10) ∧
    ((generate_quiz_from_pdf parse env).1 = Outcome.ok qp → qp.length = 10) := by
  constructor
  · intro h
    cases body with
    | none => simp [generate_quiz] at h
    | some d =>
      simp only [generate_quiz] at h
      split at h
      · simp at h
      · cases hv : plookup d "text" with
        | none => rw [hv] at h; simp at h
        | some v =>
          rw [hv] at h
          dsimp only at h
          cases v with
          | pstr s0 =>
            dsimp only at h
            split at h
            · simp at h
            · exact runAttempts_ok_length _ _ _ _ h
          | pint n => simp at h
          | plist l => simp at h
          | pnone => simp at h
  · intro h
    unfold generate_quiz_from_pdf at h
    split at h
    · simp at h
    · split at h
      · simp at h
      · split at h
        · simp at h
        · simp only at h
          split at h
          · simp at h
          · split at h
            · simp at h
            · split at h
              · simp at h
              · exact runAttempts_ok_length _ _ _ _ h

/-- A parse oracle returning a single valid two-option item. -/
def w3parse : List Char → Option JVal := fun _ =>
  some (JVal.jarr [JVal.jobj [("question", JVal.jstr "Q"),
    ("options", JVal.jarr [JVal.jstr "A", JVal.jstr "B"]),
    ("correct", JVal.jstr "A")]])

/-- One LLM attempt answering with a bracketed object array. -/
def w3resps : List AttemptRes := [AttemptRes.text ['[', lcurly, 'x', rcurly, ']']]

/-- A request body with a text field. -/
def w3body : Option (List (String × PyVal)) := some [("text", PyVal.pstr "photosynthesis")]

/-- A PDF request environment with a small extractable file. -/
def w3env : PdfEnv :=
  { hasPdfField := true, filename := "notes.pdf", fileSize := 1000,
    extractOk := true, extractedText := "cells and light", resps := w3resps }

/-- The quiz the text route returns in the witness run. -/
def w3quiz : List JVal :=
  match generate_quiz w3parse w3body w3resps with
  | Outcome.ok q => q
  | _ => []

/-- The quiz the PDF route returns in the witness run. -/
def w3pquiz : List JVal :=
  match (generate_quiz_from_pdf w3parse w3env).1 with
  | Outcome.ok q => q
  | _ => []

/-- Witness for C3: both routes return 200 with a 10-item quiz on a run that
validates one item and pads with nine filler items. -/
theorem claim3_success_has_length_10_witness :
    w3quiz.length = 10 ∧ w3pquiz.length = 10 :=
  ⟨(claim3_success_has_length_10 w3parse w3body w3resps w3env w3quiz w3pquiz).1
      (by decide),
   (claim3_success_has_length_10 w3parse w3body w3resps w3env w3quiz w3pquiz).2
      (by decide)⟩

/-! ## Claim C10 -/

/-- Claim C10: a request whose `text` value is present but not a string makes
`data['text'].strip()` raise; only the outermost `except` catches it, so the
handler answers 500 with the generic body instead of any 400 validation
error. -/
theorem claim10_nonstring_text_500 (parse : List Char → Option JVal)
    (d : List (String × PyVal)) (resps : List AttemptRes) (v : PyVal)
    (hv : plookup d "text" = some v)
    (hns : ∀ s, v ≠ PyVal.pstr s) :
    generate_quiz parse (some d) resps = Outcome.err 500 unexpectedErrorMsg := by
  have hne : d.isEmpty = false := by
    cases d with
    | nil => simp [plookup] at hv
    | cons p rest => simp
  cases v with
  | pstr s0 => exact absurd rfl (hns s0)
  | pint n => simp [generate_quiz, hne, hv]
  | plist l => simp [generate_quiz, hne, hv]
  | pnone => simp [generate_quiz, hne, hv]

/-- Witness for C10: `{"text": 5}` gets the generic 500 body. -/
theorem claim10_nonstring_text_500_witness :
    generate_quiz (fun _ => none) (some [("text", PyVal.pint 5)]) [] =
      Outcome.err 500 unexpectedErrorMsg :=
  claim10_nonstring_text_500 (fun _ => none) [("text", PyVal.pint 5)] []
    (PyVal.pint 5) rfl (fun s h => by cases h)

/-! ## Claim C1 -/

/-- An LLM reply whose extracted array is not valid JSON. -/
def c1resp : AttemptRes := AttemptRes.text ['[', lcurly, 'x', rcurly, ']']

/-- A `json.loads` oracle that fails on every input, as it does on the
malformed arrays of this scenario. -/
def c1parse : List Char → Option JVal := fun _ => none

/-- Claim C1, counterexample: a run in which all 3 attempts produce text
whose extracted array fails JSON parsing returns 500 with "Failed to parse
AI response as JSON" (api.py line 216), not the claimed "Failed to generate
quiz after multiple attempts" (which api.py line 257 reserves for unexpected
exceptions). -/
theorem claim1_counterexample :
    extract_json_from_text (stripChars ['[', lcurly, 'x', rcurly, ']']) =
      some ['[', lcurly, 'x', rcurly, ']'] ∧
    c1parse (fix_json_format ['[', lcurly, 'x', rcurly, ']']) = none ∧
    generate_quiz c1parse (some [("text", PyVal.pstr "t")]) [c1resp, c1resp, c1resp] =
      Outcome.err 500 "Failed to parse AI response as JSON" ∧
    ("Failed to parse AI response as JSON" : String) ≠
      "Failed to generate quiz after multiple attempts" :=
  ⟨by decide, by decide, by decide, by decide⟩

/-- Claim C1 (amended): when all 3 attempts produce nonempty LLM text whose
extracted array fails JSON parsing, the handler returns 500 with
`{"error": "Failed to parse AI response as JSON"}`. -/
theorem claim1_parse_failure_message (parse : List Char → Option JVal)
    (d : List (String × PyVal)) (s0 : String) (t1 t2 t3 j1 j2 j3 : List Char)
    (hd : plookup d "text" = some (PyVal.pstr s0))
    (hne : (stripChars s0.toList).isEmpty = false)
    (h1 : t1.isEmpty = false)
    (he1 : extract_json_from_text (stripChars t1) = some j1)
    (hp1 : parse (fix_json_format j1) = none)
    (h2 : t2.isEmpty = false)
    (he2 : extract_json_from_text (stripChars t2) = some j2)
    (hp2 : parse (fix_json_format j2) = none)
    (h3 : t3.isEmpty = false)
    (he3 : extract_json_from_text (stripChars t3) = some j3)
    (hp3 : parse (fix_json_format j3) = none) :
    generate_quiz parse (some d)
      [AttemptRes.text t1, AttemptRes.text t2, AttemptRes.text t3] =
      Outcome.err 500 "Failed to parse AI response as JSON" := by
  have hdne : d.isEmpty = false := by
    cases d with
    | nil => simp [plookup] at hd
    | cons p rest => simp
  simp only [generate_quiz, hdne, Bool.false_eq_true, if_false, hd]
  simp only [hne, Bool.false_eq_true, if_false]
  simp only [runAttempts, attemptStep, h1, he1, hp1, h2, he2, hp2, h3, he3, hp3,
    Bool.false_eq_true, if_false]
  simp

/-- Witness for the amended C1 at the concrete three-failure run. -/
theorem claim1_parse_failure_message_witness :
    generate_quiz c1parse (some [("text", PyVal.pstr "topic")])
      [c1resp, c1resp, c1resp] =
      Outcome.err 500 "Failed to parse AI response as JSON" :=
  claim1_parse_failure_message c1parse [("text", PyVal.pstr "topic")] "topic"
    ['[', lcurly, 'x', rcurly, ']'] ['[', lcurly, 'x', rcurly, ']']
    ['[', lcurly, 'x', rcurly, ']'] ['[', lcurly, 'x', rcurly, ']']
    ['[', lcurly, 'x', rcurly, ']'] ['[', lcurly, 'x', rcurly, ']']
    rfl (by decide) (by decide) (by decide) (by decide) (by decide)
    (by decide) (by decide) (by decide) (by decide) (by decide)

/-! ## Claim C8 -/

/-- Claim C8: when the structured array pattern does not match, the extractor
reports not-found exactly when there is no `[` or the index one past the last
`]` is not strictly greater than the index of the first `[`; otherwise it
returns the inclusive slice from the first `[` to the last `]`. -/
theorem claim8_fallback_slice (t : List Char) (h : arrObjMatch t = none) :
    (extract_json_from_text t = none ↔
      pyFindBr t = none ∨ ∃ s, pyFindBr t = some s ∧ endOfLastClose t ≤ s) ∧
    (∀ s, pyFindBr t = some s → s < endOfLastClose t →
      extract_json_from_text t = some ((t.drop s).take (endOfLastClose t - s))) := by
  constructor
  · cases hf : pyFindBr t with
    | none => simp [extract_json_from_text, h, hf]
    | some s =>
      simp only [extract_json_from_text, h, hf]
      by_cases hlt : endOfLastClose t > s
      · rw [if_pos hlt]
        constructor
        · intro habs
          exact absurd habs (by simp)
        · rintro (habs | ⟨s2, hs2, hle⟩)
          · exact absurd habs (by simp)
          · injection hs2 with hs2e
            subst hs2e
            exact absurd hle (by omega)
      · rw [if_neg hlt]
        simp only [true_iff]
        right
        exact ⟨s, rfl, by omega⟩
  · intro s hf hlt
    simp only [extract_json_from_text, h, hf]
    rw [if_pos (by omega)]

/-- Witness for C8 at `"a[b]c"`: the regex tier fails and the fallback slice
from the first `[` to the last `]` is returned. -/
theorem claim8_fallback_slice_witness :
    extract_json_from_text "a[b]c".toList =
      some (("a[b]c".toList.drop 1).take (endOfLastClose "a[b]c".toList - 1)) :=
  (claim8_fallback_slice "a[b]c".toList (by decide)).2 1 (by decide) (by decide)

/-! ## Claim C9 -/

/-- Claim C9: an oversized `.pdf` upload (over 10 MB) gets 400 with the body
`PDF file size exceeds 10MB limit`, and on this and every other exit path of
the handler the temporary upload file does not survive the request. -/
theorem claim9_pdf_size_limit (parse : List Char → Option JVal) (env : PdfEnv)
    (hf : env.hasPdfField = true)
    (hn : env.filename ≠ "")
    (hp : filenameIsPdf env.filename = true)
    (hs : env.fileSize > 10 * 1024 * 1024) :
    generate_quiz_from_pdf parse env =
      (Outcome.err 400 "PDF file size exceeds 10MB limit", false) ∧
    ∀ env2 : PdfEnv, (generate_quiz_from_pdf parse env2).2 = false := by
  constructor
  · unfold generate_quiz_from_pdf
    rw [if_neg (by simp [hf])]
    rw [if_neg hn]
    rw [if_neg (by simp [hp])]
    dsimp only
    rw [if_pos hs]
  · intro env2
    unfold generate_quiz_from_pdf
    split
    · rfl
    · split
      · rfl
      · split
        · rfl
        · rfl

/-- A concrete oversized upload environment. -/
def c9env : PdfEnv :=
  { hasPdfField := true, filename := "big.PDF", fileSize := 11 * 1024 * 1024,
    extractOk := true, extractedText := "text", resps := [] }

/-- Witness for C9: an 11 MB `.PDF` upload is rejected with the exact 400
body and no temporary file survives any run of the handler. -/
theorem claim9_pdf_size_limit_witness :
    generate_quiz_from_pdf (fun _ => none) c9env =
      (Outcome.err 400 "PDF file size exceeds 10MB limit", false) ∧
    ∀ env2 : PdfEnv, (generate_quiz_from_pdf (fun _ => none) env2).2 = false :=
  claim9_pdf_size_limit (fun _ => none) c9env (by decide) (by decide) (by decide)
    (by decide)

/-! ## Claim C5

The tier-1 pattern is greedy across the whole text: its `.*` runs to the
rightmost `}`-whitespace-`]` occurrence anywhere after the match's start.
When such an occurrence exists in the prose after the array, the match
extends past the array, so the extractor does not return exactly the array
substring. -/

theorem wsCloseLen_none (b : List Char) (h : ']' ∉ b) : wsCloseLen b = none := by
  induction b with
  | nil => rfl
  | cons c rest ih =>
    simp only [List.mem_cons, not_or] at h
    simp only [wsCloseLen]
    rw [if_neg (fun he => h.1 he.symm)]
    split
    · rw [ih h.2]
      rfl
    · rfl

theorem tailMatchLen_of_no_curly (b : List Char) (h : rcurly ∉ b) :
    tailMatchLen b = none := by
  induction b with
  | nil => rfl
  | cons c rest ih =>
    simp only [List.mem_cons, not_or] at h
    simp only [tailMatchLen]
    rw [ih h.2]
    rw [if_neg (fun he => h.1 he.symm)]

theorem wsCloseLen_append (a b : List Char) (h : ']' ∉ b) :
    wsCloseLen (a ++ b) = wsCloseLen a := by
  induction a with
  | nil => simp [wsCloseLen_none b h, wsCloseLen]
  | cons c rest ih =>
    simp only [List.cons_append, wsCloseLen, List.append_eq]
    rw [ih]

theorem tailMatchLen_none (b : List Char) (h : ']' ∉ b) : tailMatchLen b = none := by
  induction b with
  | nil => rfl
  | cons c rest ih =>
    simp only [List.mem_cons, not_or] at h
    simp only [tailMatchLen]
    rw [ih h.2]
    dsimp only
    rw [wsCloseLen_none rest h.2]
    simp

theorem tailMatchLen_append (a b : List Char) (h : ']' ∉ b) :
    tailMatchLen (a ++ b) = tailMatchLen a := by
  induction a with
  | nil => simp [tailMatchLen_none b h, tailMatchLen]
  | cons c rest ih =>
    simp only [List.cons_append, tailMatchLen, List.append_eq]
    rw [ih]
    cases htl : tailMatchLen rest with
    | some n => rfl
    | none =>
      dsimp only
      rw [wsCloseLen_append rest b h]

theorem wsCloseLen_ws_close (ws2 : List Char) (h : ∀ c ∈ ws2, isWsChar c) :
    wsCloseLen (ws2 ++ [']']) = some (ws2.length + 1) := by
  induction ws2 with
  | nil => rfl
  | cons c rest ih =>
    have hc : isWsChar c := h c (by simp)
    have hne : ¬ c = ']' := by
      intro he
      rw [he] at hc
      exact absurd hc (by decide)
    simp only [List.cons_append, wsCloseLen, if_neg hne, hc, if_true, List.append_eq]
    rw [ih (fun x hx => h x (by simp [hx]))]
    simp [List.length_cons]

theorem tailMatchLen_closes (mid ws2 : List Char) (h : ∀ c ∈ ws2, isWsChar c) :
    tailMatchLen (mid ++ rcurly :: (ws2 ++ [']'])) =
      some (mid.length + ws2.length + 2) := by
  induction mid with
  | nil =>
    have hnc : rcurly ∉ ws2 ++ [']'] := by
      simp only [List.mem_append, List.mem_singleton, not_or]
      constructor
      · intro hm
        have := h rcurly hm
        exact absurd this (by decide)
      · decide
    simp only [List.nil_append, tailMatchLen]
    rw [tailMatchLen_of_no_curly _ hnc]
    dsimp only
    rw [if_pos trivial, wsCloseLen_ws_close ws2 h]
    simp only [Option.map, Option.some.injEq, List.length_nil]
    omega
  | cons m mid ih =>
    simp only [List.cons_append, tailMatchLen, List.append_eq]
    rw [ih]
    dsimp only
    simp only [List.length_cons, List.length_nil, Option.some.injEq]
    omega

theorem spanWs_ws_append (ws : List Char) (r : List Char)
    (hws : ∀ c ∈ ws, isWsChar c) :
    spanWs (ws ++ lcurly :: r) = (ws, lcurly :: r) := by
  induction ws with
  | nil =>
    simp only [List.nil_append, spanWs]
    rw [if_neg (by decide)]
  | cons c rest ih =>
    have hc : isWsChar c := hws c (by simp)
    simp only [List.cons_append, spanWs, hc, if_true, List.append_eq]
    rw [ih (fun x hx => hws x (by simp [hx]))]

theorem startMatch_not_bracket (c : Char) (t : List Char) (h : ¬ c = '[') :
    startMatch (c :: t) = none := by
  simp only [startMatch, if_neg h]

theorem arrObjMatch_skip (pre : List Char) (rest : List Char)
    (h : '[' ∉ pre) : arrObjMatch (pre ++ rest) = arrObjMatch rest := by
  induction pre with
  | nil => rfl
  | cons c pre2 ih =>
    simp only [List.mem_cons, not_or] at h
    simp only [List.cons_append, arrObjMatch]
    rw [startMatch_not_bracket c _ (fun he => h.1 he.symm)]
    exact ih h.2

/-- A first bracketed object array in the text. -/
def c5arr1 : List Char := ['[', lcurly, '\"', 'a', '\"', ':', '1', rcurly, ']']

/-- A second bracketed object array in the text. -/
def c5arr2 : List Char := ['[', lcurly, '\"', 'b', '\"', ':', '2', rcurly, ']']

/-- Prose containing both arrays. -/
def c5text : List Char :=
  "see ".toList ++ c5arr1 ++ " and ".toList ++ c5arr2 ++ " end".toList

/-- Claim C5, counterexample: on text containing a bracketed array of objects
embedded in prose, the extractor can return a strictly longer slice than the
array — here the greedy match spans from the first array's `[` to the second
array's `]`. -/
theorem claim5_counterexample :
    extract_json_from_text c5text =
      some (c5arr1 ++ " and ".toList ++ c5arr2) ∧
    c5arr1 ++ " and ".toList ++ c5arr2 ≠ c5arr1 ∧
    c5arr1 ++ " and ".toList ++ c5arr2 ≠ c5arr2 :=
  ⟨by decide, by decide, by decide⟩

/-- Claim C5 (amended): the extractor returns exactly the array substring
provided the prose before the array contains no `[` and the prose after it
contains no `]` (the counterexample shows the greedy match overshooting when
the trailing prose contains another `}`-then-`]` occurrence). -/
theorem claim5_exact_array (pre ws1 mid ws2 post : List Char)
    (hpre : '[' ∉ pre)
    (hws1 : ∀ c ∈ ws1, isWsChar c) (hws2 : ∀ c ∈ ws2, isWsChar c)
    (hpost2 : ']' ∉ post) :
    extract_json_from_text
        (pre ++ '[' :: (ws1 ++ lcurly :: (mid ++ rcurly :: (ws2 ++ ']' :: post)))) =
      some ('[' :: (ws1 ++ lcurly :: (mid ++ rcurly :: (ws2 ++ [']'])))) := by
  have hsplit : mid ++ rcurly :: (ws2 ++ ']' :: post) =
      (mid ++ rcurly :: (ws2 ++ [']'])) ++ post := by
    simp
  have hinner : tailMatchLen (mid ++ rcurly :: (ws2 ++ ']' :: post)) =
      some (mid.length + ws2.length + 2) := by
    rw [hsplit, tailMatchLen_append _ post hpost2, tailMatchLen_closes mid ws2 hws2]
  have htake : (mid ++ rcurly :: (ws2 ++ ']' :: post)).take
      (mid.length + ws2.length + 2) = mid ++ rcurly :: (ws2 ++ [']']) := by
    rw [hsplit]
    rw [List.take_left']
    simp only [List.length_append, List.length_cons, List.length_nil]
    omega
  have hspan : spanWs (ws1 ++ lcurly :: (mid ++ rcurly :: (ws2 ++ ']' :: post))) =
      (ws1, lcurly :: (mid ++ rcurly :: (ws2 ++ ']' :: post))) :=
    spanWs_ws_append ws1 _ hws1
  have hstart : startMatch
      ('[' :: (ws1 ++ lcurly :: (mid ++ rcurly :: (ws2 ++ ']' :: post)))) =
      some ('[' :: (ws1 ++ lcurly :: (mid ++ rcurly :: (ws2 ++ [']'])))) := by
    simp [startMatch, hspan, hinner, htake]
  unfold extract_json_from_text
  rw [arrObjMatch_skip pre _ hpre]
  simp only [arrObjMatch, hstart]

/-- Witness for the amended C5 at a concrete single-array text. -/
theorem claim5_exact_array_witness :
    extract_json_from_text
        ("see ".toList ++ '[' :: ([] ++ lcurly ::
          (['\"', 'a', '\"', ':', '1'] ++ rcurly :: ([] ++ ']' :: " done".toList)))) =
      some ('[' :: ([] ++ lcurly :: (['\"', 'a', '\"', ':', '1'] ++
        rcurly :: ([] ++ [']'])))) :=
  claim5_exact_array "see ".toList [] ['\"', 'a', '\"', ':', '1'] [] " done".toList
    (by decide) (by simp) (by simp) (by decide)

/-! ## Claim C6

`fix_json_format` is not idempotent: the trailing-comma pass scans
left-to-right without revisiting, so deleting `,]` out of `,,]` exposes a new
`,]` that only a second application removes; and the `str.replace` of pass 1
can likewise reconstitute its own fifteen-character pattern.  It is idempotent
whenever its own output contains no residual trailing-comma match and no
occurrence of the pass-1 pattern; the development below proves that, via: the
two no-op replaces are always the identity, the pattern replace is the
identity on pattern-free text, and the key pass leaves no bare-key match
behind (nor can the trailing pass create one). -/

/-- The substring-occurrence test of `str.replace`: does `pat` match at some
position of the text? -/
def hasSub (pat : List Char) : List Char → Bool
  | [] => matchesAt pat []
  | c :: rest => matchesAt pat (c :: rest) || hasSub pat rest

/-- Does a bare-key match (`(\{|,)\s*\w+\s*:`) start at the head? -/
def keyHeadMatch : List Char → Bool
  | [] => false
  | c :: rest => (c = lcurly || c = ',') && (tryKeyMatch rest).isSome

/-- Does a bare-key match start anywhere in the text? -/
def hasKeyMatch : List Char → Bool
  | [] => false
  | c :: rest => keyHeadMatch (c :: rest) || hasKeyMatch rest

/-- Does a trailing-comma match (`,\s*(\}|\])`) start anywhere in the text? -/
def hasTrailMatch : List Char → Bool
  | [] => false
  | c :: rest => (c = ',' && (matchCommaClose rest).isSome) || hasTrailMatch rest

/-- Claim C6, counterexample: `fix_json_format` is not idempotent — on
`,,]` one application yields `,]` and a second application yields `]`. -/
theorem claim6_counterexample :
    fix_json_format (fix_json_format [',', ',', ']']) ≠
      fix_json_format [',', ',', ']'] ∧
    fix_json_format [',', ',', ']'] = [',', ']'] ∧
    fix_json_format (fix_json_format [',', ',', ']']) = [']'] :=
  ⟨by decide, by decide, by decide⟩

theorem isWsChar_cases (c : Char) (h : isWsChar c = true) :
    c = ' ' ∨ c = '\t' ∨ c = '\n' ∨ c = '\r' ∨
      c = Char.ofNat 11 ∨ c = Char.ofNat 12 := by
  simp only [isWsChar, Bool.or_eq_true, decide_eq_true_eq] at h
  tauto

theorem isWsChar_not_comma (c : Char) (h : isWsChar c = true) : c ≠ ',' := by
  intro he
  rw [he] at h
  exact absurd h (by decide)

theorem isWsChar_not_lcurly (c : Char) (h : isWsChar c = true) : c ≠ lcurly := by
  intro he
  rw [he] at h
  exact absurd h (by decide)

theorem isWordChar_not_comma (c : Char) (h : isWordChar c = true) : c ≠ ',' := by
  intro he
  rw [he] at h
  exact absurd h (by decide)

theorem isWordChar_not_lcurly (c : Char) (h : isWordChar c = true) : c ≠ lcurly := by
  intro he
  rw [he] at h
  exact absurd h (by decide)

theorem isWordChar_not_ws (c : Char) (h : isWordChar c = true) :
    isWsChar c = false := by
  by_contra hc
  rcases isWsChar_cases c (by revert hc; cases isWsChar c <;> simp) with
    h1 | h1 | h1 | h1 | h1 | h1 <;> rw [h1] at h <;> exact absurd h (by decide)

theorem strRepl_self_single (a : Char) (l : List Char) :
    strRepl [a] [a] l = l := by
  induction l with
  | nil => rfl
  | cons c rest ih =>
    rw [strRepl_cons]
    by_cases h : matchesAt [a] (c :: rest) = true
    · rw [if_pos h]
      have ha : a = c := by
        simp only [matchesAt, Bool.and_eq_true, decide_eq_true_eq] at h
        exact h.1
      have hd : List.drop ([a].length - 1) rest = rest := rfl
      rw [hd, ih, ha]
      rfl
    · rw [if_neg h, ih]

theorem strRepl_of_not_sub (pat rep l : List Char) (h : hasSub pat l = false) :
    strRepl pat rep l = l := by
  induction l with
  | nil => rfl
  | cons c rest ih =>
    have hh : matchesAt pat (c :: rest) = false ∧ hasSub pat rest = false := by
      simp only [hasSub, Bool.or_eq_false_iff] at h
      exact h
    rw [strRepl_cons, if_neg (by simp [hh.1]), ih hh.2]

theorem dropWsL_mem (l : List Char) (x : Char) (h : x ∈ dropWsL l) : x ∈ l := by
  induction l with
  | nil => simpa [dropWsL] using h
  | cons c rest ih =>
    simp only [dropWsL] at h
    split at h
    · simp [ih h]
    · exact h

theorem takeWordL_fst_mem (l : List Char) (x : Char)
    (h : x ∈ (takeWordL l).1) : x ∈ l := by
  induction l with
  | nil => simpa [takeWordL] using h
  | cons c rest ih =>
    simp only [takeWordL] at h
    split at h
    · simp only [List.mem_cons] at h
      rcases h with h | h
      · simp [h]
      · simp [ih h]
    · simp at h

theorem takeWordL_snd_mem (l : List Char) (x : Char)
    (h : x ∈ (takeWordL l).2) : x ∈ l := by
  induction l with
  | nil => simpa [takeWordL] using h
  | cons c rest ih =>
    simp only [takeWordL] at h
    split at h
    · simp [ih h]
    · exact h

theorem takeWordL_fst_words (l : List Char) :
    ∀ c ∈ (takeWordL l).1, isWordChar c = true := by
  induction l with
  | nil => simp [takeWordL]
  | cons c rest ih =>
    intro x hx
    simp only [takeWordL] at hx
    split at hx
    · rename_i hw
      simp only [List.mem_cons] at hx
      rcases hx with hx | hx
      · rw [hx]; exact hw
      · exact ih x hx
    · simp at hx

theorem tryKeyMatch_fst_mem (l : List Char) (i r : List Char)
    (h : tryKeyMatch l = some (i, r)) : ∀ x ∈ i, x ∈ l := by
  intro x hx
  unfold tryKeyMatch at h
  split at h
  · exact absurd h (by simp)
  · rename_i c0 i0 l2 hw
    split at h
    · split at h
      · simp only [Option.some.injEq, Prod.mk.injEq] at h
        rw [← h.1] at hx
        exact dropWsL_mem l x (takeWordL_fst_mem (dropWsL l) x (by rw [hw]; exact hx))
      · exact absurd h (by simp)
    · exact absurd h (by simp)

theorem tryKeyMatch_fst_words (l : List Char) (i r : List Char)
    (h : tryKeyMatch l = some (i, r)) : ∀ x ∈ i, isWordChar x = true := by
  intro x hx
  unfold tryKeyMatch at h
  split at h
  · exact absurd h (by simp)
  · rename_i c0 i0 l2 hw
    split at h
    · split at h
      · simp only [Option.some.injEq, Prod.mk.injEq] at h
        rw [← h.1] at hx
        exact takeWordL_fst_words (dropWsL l) x (by rw [hw]; exact hx)
      · exact absurd h (by simp)
    · exact absurd h (by simp)

theorem tryKeyMatch_snd_mem (l : List Char) (i r : List Char)
    (h : tryKeyMatch l = some (i, r)) : ∀ x ∈ r, x ∈ l := by
  intro x hx
  unfold tryKeyMatch at h
  split at h
  · exact absurd h (by simp)
  · rename_i c0 i0 l2 hw
    split at h
    · rename_i c l3 hd
      split at h
      · simp only [Option.some.injEq, Prod.mk.injEq] at h
        rw [← h.2] at hx
        have hx2 : x ∈ dropWsL l2 := by rw [hd]; simp [hx]
        have hx3 : x ∈ l2 := dropWsL_mem l2 x hx2
        have hx4 : x ∈ (takeWordL (dropWsL l)).2 := by rw [hw]; exact hx3
        exact dropWsL_mem l x (takeWordL_snd_mem (dropWsL l) x hx4)
      · exact absurd h (by simp)
    · exact absurd h (by simp)

theorem matchCommaClose_bracket (l : List Char) (b : Char) (r : List Char)
    (h : matchCommaClose l = some (b, r)) : b = rcurly ∨ b = ']' := by
  induction l with
  | nil => simp [matchCommaClose] at h
  | cons c rest ih =>
    simp only [matchCommaClose] at h
    split at h
    · exact ih h
    · split at h
      · rename_i hb
        simp only [Option.some.injEq, Prod.mk.injEq] at h
        rw [← h.1]
        simpa using hb
      · exact absurd h (by simp)

theorem matchCommaClose_fst_mem (l : List Char) (b : Char) (r : List Char)
    (h : matchCommaClose l = some (b, r)) : b ∈ l := by
  induction l with
  | nil => simp [matchCommaClose] at h
  | cons c rest ih =>
    simp only [matchCommaClose] at h
    split at h
    · simp [ih h]
    · split at h
      · simp only [Option.some.injEq, Prod.mk.injEq] at h
        simp [h.1]
      · exact absurd h (by simp)

theorem matchCommaClose_snd_mem (l : List Char) (b : Char) (r : List Char)
    (h : matchCommaClose l = some (b, r)) : ∀ x ∈ r, x ∈ l := by
  induction l with
  | nil => simp [matchCommaClose] at h
  | cons c rest ih =>
    intro x hx
    simp only [matchCommaClose] at h
    split at h
    · simp [ih h x hx]
    · split at h
      · simp only [Option.some.injEq, Prod.mk.injEq] at h
        rw [← h.2] at hx
        simp [hx]
      · exact absurd h (by simp)

theorem fixKeys_nil : fixKeys [] = [] := rfl

theorem fixTrailing_nil : fixTrailing [] = [] := rfl

theorem fixKeys_cons_head (c : Char) (r : List Char) :
    ∃ t, fixKeys (c :: r) = c :: t := by
  rw [fixKeys_cons]
  split
  · cases tryKeyMatch r with
    | some p => exact ⟨_, rfl⟩
    | none => exact ⟨_, rfl⟩
  · exact ⟨_, rfl⟩

theorem fixTrailing_cons_head (c : Char) (r : List Char) :
    (∃ t, fixTrailing (c :: r) = c :: t) ∨
    (∃ b t, (b = rcurly ∨ b = ']') ∧ fixTrailing (c :: r) = b :: t) := by
  rw [fixTrailing_cons]
  split
  · cases hp : matchCommaClose r with
    | some p =>
      right
      exact ⟨p.1, _, matchCommaClose_bracket r p.1 p.2 (by rw [hp]), rfl⟩
    | none => left; exact ⟨_, rfl⟩
  · left; exact ⟨_, rfl⟩

theorem dropWsL_fixKeys (l : List Char) :
    dropWsL (fixKeys l) = fixKeys (dropWsL l) := by
  induction l with
  | nil => rfl
  | cons c r ih =>
    by_cases hws : isWsChar c = true
    · rw [fixKeys_cons,
        if_neg (by simp [isWsChar_not_lcurly c hws, isWsChar_not_comma c hws])]
      simp only [dropWsL, hws, if_true]
      exact ih
    · obtain ⟨t, ht⟩ := fixKeys_cons_head c r
      have h1 : dropWsL (c :: r) = c :: r := by simp [dropWsL, hws]
      have h2 : dropWsL (c :: t) = c :: t := by simp [dropWsL, hws]
      rw [h1, ht, h2]

theorem dropWsL_fixTrailing (l : List Char) :
    dropWsL (fixTrailing l) = fixTrailing (dropWsL l) := by
  induction l with
  | nil => rfl
  | cons c r ih =>
    by_cases hws : isWsChar c = true
    · rw [fixTrailing_cons, if_neg (by simp [isWsChar_not_comma c hws])]
      simp only [dropWsL, hws, if_true]
      exact ih
    · rcases fixTrailing_cons_head c r with ⟨t, ht⟩ | ⟨b, t, hb, ht⟩
      · have h1 : dropWsL (c :: r) = c :: r := by simp [dropWsL, hws]
        have h2 : dropWsL (c :: t) = c :: t := by simp [dropWsL, hws]
        rw [h1, ht, h2]
      · have hbws : isWsChar b = false := by
          rcases hb with hb | hb <;> rw [hb] <;> decide
        have h1 : dropWsL (c :: r) = c :: r := by simp [dropWsL, hws]
        have h2 : dropWsL (b :: t) = b :: t := by simp [dropWsL, hbws]
        rw [h1, ht, h2]

theorem takeWordL_fixKeys (l : List Char) :
    takeWordL (fixKeys l) = ((takeWordL l).1, fixKeys (takeWordL l).2) := by
  induction l with
  | nil => rfl
  | cons c r ih =>
    by_cases hw : isWordChar c = true
    · rw [fixKeys_cons,
        if_neg (by simp [isWordChar_not_lcurly c hw, isWordChar_not_comma c hw])]
      simp only [takeWordL, hw, if_true, ih]
    · have h1 : takeWordL (c :: r) = ([], c :: r) := by simp [takeWordL, hw]
      obtain ⟨t, ht⟩ := fixKeys_cons_head c r
      have h2 : takeWordL (c :: t) = ([], c :: t) := by simp [takeWordL, hw]
      rw [h1, ht, h2]

theorem takeWordL_fixTrailing (l : List Char) :
    takeWordL (fixTrailing l) = ((takeWordL l).1, fixTrailing (takeWordL l).2) := by
  induction l with
  | nil => rfl
  | cons c r ih =>
    by_cases hw : isWordChar c = true
    · rw [fixTrailing_cons, if_neg (by simp [isWordChar_not_comma c hw])]
      simp only [takeWordL, hw, if_true, ih]
    · have h1 : takeWordL (c :: r) = ([], c :: r) := by simp [takeWordL, hw]
      rcases fixTrailing_cons_head c r with ⟨t, ht⟩ | ⟨b, t, hb, ht⟩
      · have h2 : takeWordL (c :: t) = ([], c :: t) := by simp [takeWordL, hw]
        rw [h1, ht, h2]
      · have hbw : isWordChar b = false := by
          rcases hb with hb | hb <;> rw [hb] <;> decide
        have h2 : takeWordL (b :: t) = ([], b :: t) := by simp [takeWordL, hbw]
        rw [h1, ht, h2]

theorem tryKeyMatch_fixKeys_none (l : List Char) (h : tryKeyMatch l = none) :
    tryKeyMatch (fixKeys l) = none := by
  unfold tryKeyMatch at h ⊢
  rw [dropWsL_fixKeys, takeWordL_fixKeys]
  cases hts : takeWordL (dropWsL l) with
  | mk i l2 =>
    rw [hts] at h
    dsimp only
    cases i with
    | nil => rfl
    | cons c0 i0 =>
      dsimp only at h ⊢
      rw [dropWsL_fixKeys]
      cases hd2 : dropWsL l2 with
      | nil => rw [fixKeys_nil]
      | cons c l3 =>
        rw [hd2] at h
        obtain ⟨t, ht⟩ := fixKeys_cons_head c l3
        rw [ht]
        dsimp only at h ⊢
        by_cases hc : c = ':'
        · rw [if_pos hc] at h
          exact absurd h (by simp)
        · rw [if_neg hc]

theorem tryKeyMatch_fixTrailing_none (l : List Char) (h : tryKeyMatch l = none) :
    tryKeyMatch (fixTrailing l) = none := by
  unfold tryKeyMatch at h ⊢
  rw [dropWsL_fixTrailing, takeWordL_fixTrailing]
  cases hts : takeWordL (dropWsL l) with
  | mk i l2 =>
    rw [hts] at h
    dsimp only
    cases i with
    | nil => rfl
    | cons c0 i0 =>
      dsimp only at h ⊢
      rw [dropWsL_fixTrailing]
      cases hd2 : dropWsL l2 with
      | nil => rw [fixTrailing_nil]
      | cons c l3 =>
        rw [hd2] at h
        dsimp only at h
        by_cases hc : c = ':'
        · rw [if_pos hc] at h
          exact absurd h (by simp)
        · rcases fixTrailing_cons_head c l3 with ⟨t, ht⟩ | ⟨b, t, hb, ht⟩
          · rw [ht]
            dsimp only
            rw [if_neg hc]
          · have hbc : ¬ b = ':' := by
              rcases hb with hb | hb <;> rw [hb] <;> decide
            rw [ht]
            dsimp only
            rw [if_neg hbc]

theorem fixKeys_mem_aux : ∀ (n : Nat) (l : List Char), l.length ≤ n →
    ∀ x ∈ fixKeys l, x ∈ l ∨ x = ' ' ∨ x = '\"' ∨ x = ':' := by
  intro n
  induction n with
  | zero =>
    intro l hl x hx
    cases l with
    | nil => simp [fixKeys_nil] at hx
    | cons c r => simp at hl
  | succ n ih =>
    intro l hl x hx
    cases l with
    | nil => simp [fixKeys_nil] at hx
    | cons c r =>
      have hr : r.length ≤ n := by
        simp only [List.length_cons] at hl
        omega
      rw [fixKeys_cons] at hx
      split at hx
      · cases hp : tryKeyMatch r with
        | some p =>
          rw [hp] at hx
          dsimp only at hx
          simp only [List.mem_cons, List.mem_append] at hx
          rcases hx with hx | hx | hx | hx
          · exact Or.inl (by simp [hx])
          · exact Or.inr (Or.inl hx)
          · exact Or.inr (Or.inr (Or.inl hx))
          · rcases hx with hx | hx
            · have : x ∈ r := tryKeyMatch_fst_mem r p.1 p.2 (by rw [hp]) x hx
              exact Or.inl (by simp [this])
            · rcases hx with hx | hx | hx
              · exact Or.inr (Or.inr (Or.inl hx))
              · exact Or.inr (Or.inr (Or.inr hx))
              · have hlen := tryKeyMatch_rest_length_lt r p.1 p.2 (by rw [hp])
                rcases ih p.2 (by omega) x hx with h2 | h2
                · have : x ∈ r := tryKeyMatch_snd_mem r p.1 p.2 (by rw [hp]) x h2
                  exact Or.inl (by simp [this])
                · exact Or.inr h2
        | none =>
          rw [hp] at hx
          simp only [List.mem_cons] at hx
          rcases hx with hx | hx
          · exact Or.inl (by simp [hx])
          · rcases ih r hr x hx with h2 | h2
            · exact Or.inl (by simp [h2])
            · exact Or.inr h2
      · simp only [List.mem_cons] at hx
        rcases hx with hx | hx
        · exact Or.inl (by simp [hx])
        · rcases ih r hr x hx with h2 | h2
          · exact Or.inl (by simp [h2])
          · exact Or.inr h2

theorem fixKeys_mem (l : List Char) (x : Char) (h : x ∈ fixKeys l) :
    x ∈ l ∨ x = ' ' ∨ x = '\"' ∨ x = ':' :=
  fixKeys_mem_aux l.length l (Nat.le_refl _) x h

theorem fixTrailing_mem_aux : ∀ (n : Nat) (l : List Char), l.length ≤ n →
    ∀ x ∈ fixTrailing l, x ∈ l := by
  intro n
  induction n with
  | zero =>
    intro l hl x hx
    cases l with
    | nil => simp [fixTrailing_nil] at hx
    | cons c r => simp at hl
  | succ n ih =>
    intro l hl x hx
    cases l with
    | nil => simp [fixTrailing_nil] at hx
    | cons c r =>
      have hr : r.length ≤ n := by
        simp only [List.length_cons] at hl
        omega
      rw [fixTrailing_cons] at hx
      split at hx
      · cases hp : matchCommaClose r with
        | some p =>
          rw [hp] at hx
          dsimp only at hx
          simp only [List.mem_cons] at hx
          rcases hx with hx | hx
          · have : p.1 ∈ r := matchCommaClose_fst_mem r p.1 p.2 (by rw [hp])
            rw [hx]
            simp [this]
          · have hlen := matchCommaClose_rest_length_le r p.1 p.2 (by rw [hp])
            have h2 := ih p.2 (by omega) x hx
            have : x ∈ r := matchCommaClose_snd_mem r p.1 p.2 (by rw [hp]) x h2
            simp [this]
        | none =>
          rw [hp] at hx
          simp only [List.mem_cons] at hx
          rcases hx with hx | hx
          · simp [hx]
          · simp [ih r hr x hx]
      · simp only [List.mem_cons] at hx
        rcases hx with hx | hx
        · simp [hx]
        · simp [ih r hr x hx]

theorem fixTrailing_mem (l : List Char) (x : Char) (h : x ∈ fixTrailing l) :
    x ∈ l :=
  fixTrailing_mem_aux l.length l (Nat.le_refl _) x h

theorem tryKeyMatch_space_quote (t : List Char) :
    tryKeyMatch (' ' :: '\"' :: t) = none := by
  have hw : isWsChar ' ' = true := by decide
  have hq : isWsChar '\"' = false := by decide
  have hqw : isWordChar '\"' = false := by decide
  have h1 : dropWsL (' ' :: '\"' :: t) = '\"' :: t := by
    simp [dropWsL, hw, hq]
  have h2 : takeWordL ('\"' :: t) = ([], '\"' :: t) := by
    simp [takeWordL, hqw]
  unfold tryKeyMatch
  rw [h1, h2]

theorem hasKeyMatch_cons_skip (c : Char) (t : List Char)
    (h : (c = lcurly || c = ',') = false) :
    hasKeyMatch (c :: t) = hasKeyMatch t := by
  simp only [hasKeyMatch, keyHeadMatch, h, Bool.false_and, Bool.false_or]

theorem hasKeyMatch_cons_none (c : Char) (t : List Char)
    (h : tryKeyMatch t = none) :
    hasKeyMatch (c :: t) = hasKeyMatch t := by
  simp only [hasKeyMatch, keyHeadMatch, h, Option.isSome_none, Bool.and_false,
    Bool.false_or]

theorem hasKeyMatch_append_words (i t : List Char)
    (h : ∀ c ∈ i, isWordChar c = true) :
    hasKeyMatch (i ++ t) = hasKeyMatch t := by
  induction i with
  | nil => rfl
  | cons c i2 ih =>
    have hc := h c (by simp)
    have h1 : (c = lcurly || c = ',') = false := by
      have h2 := isWordChar_not_lcurly c hc
      have h3 := isWordChar_not_comma c hc
      simp [h2, h3]
    rw [List.cons_append, hasKeyMatch_cons_skip c _ h1]
    exact ih (fun x hx => h x (by simp [hx]))

theorem keyHeadMatch_comma_or_curly (c : Char) (r : List Char)
    (hc : (c = lcurly || c = ',') = true)
    (h : keyHeadMatch (c :: r) = false) : tryKeyMatch r = none := by
  cases htk : tryKeyMatch r with
  | none => rfl
  | some q =>
    simp only [keyHeadMatch, htk, hc, Option.isSome_some, Bool.true_and,
      Bool.and_true] at h
    exact Bool.noConfusion h

theorem matchCommaClose_keyMatch_rest (l : List Char) (b : Char) (r2 : List Char)
    (h : matchCommaClose l = some (b, r2)) (hk : hasKeyMatch l = false) :
    hasKeyMatch r2 = false := by
  induction l with
  | nil => simp [matchCommaClose] at h
  | cons c rest ih =>
    have hh : hasKeyMatch rest = false := by
      simp only [hasKeyMatch, Bool.or_eq_false_iff] at hk
      exact hk.2
    simp only [matchCommaClose] at h
    split at h
    · exact ih h hh
    · split at h
      · simp only [Option.some.injEq, Prod.mk.injEq] at h
        rw [← h.2]
        exact hh
      · exact absurd h (by simp)

theorem hasKeyMatch_fixKeys_aux : ∀ (n : Nat) (l : List Char), l.length ≤ n →
    hasKeyMatch (fixKeys l) = false := by
  intro n
  induction n with
  | zero =>
    intro l hl
    cases l with
    | nil => rfl
    | cons c r => simp at hl
  | succ n ih =>
    intro l hl
    cases l with
    | nil => rfl
    | cons c r =>
      have hr : r.length ≤ n := by
        simp only [List.length_cons] at hl
        omega
      rw [fixKeys_cons]
      by_cases hc : (c = lcurly || c = ',') = true
      · rw [if_pos hc]
        cases hp : tryKeyMatch r with
        | some p =>
          dsimp only
          rw [hasKeyMatch_cons_none c _ (tryKeyMatch_space_quote _)]
          rw [hasKeyMatch_cons_skip ' ' _ (by decide)]
          rw [hasKeyMatch_cons_skip '\"' _ (by decide)]
          rw [hasKeyMatch_append_words p.1 _
            (tryKeyMatch_fst_words r p.1 p.2 (by rw [hp]))]
          rw [hasKeyMatch_cons_skip '\"' _ (by decide)]
          rw [hasKeyMatch_cons_skip ':' _ (by decide)]
          have hlt := tryKeyMatch_rest_length_lt r p.1 p.2 (by rw [hp])
          exact ih p.2 (by omega)
        | none =>
          dsimp only
          rw [hasKeyMatch_cons_none c _ (tryKeyMatch_fixKeys_none r hp)]
          exact ih r hr
      · rw [if_neg hc]
        have hc2 : (c = lcurly || c = ',') = false := by
          revert hc
          cases (c = lcurly || c = ',') <;> simp
        rw [hasKeyMatch_cons_skip c _ hc2]
        exact ih r hr

theorem hasKeyMatch_fixKeys (l : List Char) : hasKeyMatch (fixKeys l) = false :=
  hasKeyMatch_fixKeys_aux l.length l (Nat.le_refl _)

theorem hasKeyMatch_fixTrailing_aux : ∀ (n : Nat) (l : List Char), l.length ≤ n →
    hasKeyMatch l = false → hasKeyMatch (fixTrailing l) = false := by
  intro n
  induction n with
  | zero =>
    intro l hl h
    cases l with
    | nil => rfl
    | cons c r => simp at hl
  | succ n ih =>
    intro l hl h
    cases l with
    | nil => rfl
    | cons c r =>
      have hr : r.length ≤ n := by
        simp only [List.length_cons] at hl
        omega
      have hh : keyHeadMatch (c :: r) = false ∧ hasKeyMatch r = false := by
        simp only [hasKeyMatch, Bool.or_eq_false_iff] at h
        exact h
      rw [fixTrailing_cons]
      by_cases hc : c = ','
      · rw [if_pos hc]
        cases hp : matchCommaClose r with
        | some p =>
          dsimp only
          have hb := matchCommaClose_bracket r p.1 p.2 (by rw [hp])
          have hbs : (p.1 = lcurly || p.1 = ',') = false := by
            rcases hb with hb | hb <;> rw [hb] <;> decide
          rw [hasKeyMatch_cons_skip p.1 _ hbs]
          have hk2 : hasKeyMatch p.2 = false :=
            matchCommaClose_keyMatch_rest r p.1 p.2 (by rw [hp]) hh.2
          have hlt := matchCommaClose_rest_length_le r p.1 p.2 (by rw [hp])
          exact ih p.2 (by omega) hk2
        | none =>
          dsimp only
          have htk : tryKeyMatch r = none :=
            keyHeadMatch_comma_or_curly c r (by rw [hc]; decide) hh.1
          rw [hasKeyMatch_cons_none c _ (tryKeyMatch_fixTrailing_none r htk)]
          exact ih r hr hh.2
      · rw [if_neg hc]
        by_cases hcl : c = lcurly
        · have htk : tryKeyMatch r = none :=
            keyHeadMatch_comma_or_curly c r (by rw [hcl]; decide) hh.1
          rw [hasKeyMatch_cons_none c _ (tryKeyMatch_fixTrailing_none r htk)]
          exact ih r hr hh.2
        · have hs : (c = lcurly || c = ',') = false := by
            simp [hcl, hc]
          rw [hasKeyMatch_cons_skip c _ hs]
          exact ih r hr hh.2

theorem hasKeyMatch_fixTrailing (l : List Char) (h : hasKeyMatch l = false) :
    hasKeyMatch (fixTrailing l) = false :=
  hasKeyMatch_fixTrailing_aux l.length l (Nat.le_refl _) h

theorem fixKeys_eq_self (l : List Char) (h : hasKeyMatch l = false) :
    fixKeys l = l := by
  induction l with
  | nil => rfl
  | cons c r ih =>
    have hh : keyHeadMatch (c :: r) = false ∧ hasKeyMatch r = false := by
      simp only [hasKeyMatch, Bool.or_eq_false_iff] at h
      exact h
    rw [fixKeys_cons]
    by_cases hc : (c = lcurly || c = ',') = true
    · rw [if_pos hc, keyHeadMatch_comma_or_curly c r hc hh.1]
      dsimp only
      rw [ih hh.2]
    · rw [if_neg hc, ih hh.2]

theorem fixTrailing_eq_self (l : List Char) (h : hasTrailMatch l = false) :
    fixTrailing l = l := by
  induction l with
  | nil => rfl
  | cons c r ih =>
    have hh : (c = ',' && (matchCommaClose r).isSome) = false ∧
        hasTrailMatch r = false := by
      simp only [hasTrailMatch, Bool.or_eq_false_iff] at h
      exact h
    rw [fixTrailing_cons]
    by_cases hc : c = ','
    · rw [if_pos hc]
      have hmc : matchCommaClose r = none := by
        cases hmc : matchCommaClose r with
        | none => rfl
        | some q =>
          have h1 := hh.1
          rw [hmc, hc] at h1
          simp at h1
      rw [hmc]
      dsimp only
      rw [ih hh.2]
    · rw [if_neg hc, ih hh.2]

/-- Claim C6 (amended): `fix_json_format` is idempotent on every input whose
output contains no residual match of its two lossy passes.  If the output of
`fix_json_format x` contains no occurrence of the pass-1 pattern `quotePat`
and no substring matching `,\s*(\x7d|\])`, then applying `fix_json_format`
again returns the output unchanged.  Neither side condition is redundant:
the trailing-comma pass can leave a fresh match behind (deleting one comma
may bring an earlier comma next to the closing bracket, as
`claim6_counterexample` shows on `,,]`), and the pass-1 substring replace can
likewise reconstitute its own pattern.  The key-quoting pass never leaves a
match of its own pattern behind, so it needs no side condition. -/
theorem claim6_idempotent (x : List Char)
    (hq : hasSub quotePat (fix_json_format x) = false)
    (h : hasTrailMatch (fix_json_format x) = false) :
    fix_json_format (fix_json_format x) = fix_json_format x := by
  have hkm : hasKeyMatch (fix_json_format x) = false :=
    hasKeyMatch_fixTrailing _ (hasKeyMatch_fixKeys _)
  show fixTrailing (fixKeys (fixQuotes (fix_json_format x))) = fix_json_format x
  unfold fixQuotes
  rw [strRepl_self_single '\"' (fix_json_format x), strRepl_self_single '\"' _,
    strRepl_of_not_sub quotePat [squote] _ hq,
    fixKeys_eq_self _ hkm, fixTrailing_eq_self _ h]

theorem claim6_idempotent_witness :
    (hasSub quotePat (fix_json_format [lcurly, 'a', ':', '1', rcurly]) = false ∧
     hasTrailMatch (fix_json_format [lcurly, 'a', ':', '1', rcurly]) = false) ∧
    fix_json_format (fix_json_format [lcurly, 'a', ':', '1', rcurly]) =
      fix_json_format [lcurly, 'a', ':', '1', rcurly] :=
  ⟨⟨by decide, by decide⟩,
    claim6_idempotent [lcurly, 'a', ':', '1', rcurly] (by decide) (by decide)⟩

end Quizcraft
